import Mathlib

/-!
Verification development for the beamline-worker repository: a shallow
embedding of the worker's pure data model and per-message / per-task logic
(src/main.rs, src/error.rs, src/dlq.rs, src/handlers/fs.rs,
src/observability/pii.rs, src/protocol.rs), together with theorems settling
the frozen claims about it.

Conventions of the embedding:
* Rust `u64` values are modelled as `Nat` (the places where overflow could
  matter, e.g. the saturating backoff arithmetic, are noted at the
  definition site and shown to agree with saturating semantics).
* JSON values (`serde_json::Value`) are modelled by the inductive `Json`
  below; the distinction between `u64`/`i64`/`f64` storage made by
  serde_json's `Number` is captured by `JNum`.
* Effectful code (bus publishes, file writes, metric increments) is
  modelled by returning explicit effect records; the outcome of an
  external effect (publish success/failure, filesystem read result) is an
  explicit function parameter.
-/

namespace Beamline

/-! ## String helpers

Rust's `str::contains(pat)` is substring containment.  We model it over
the character list of the string. -/

/-- `pat.isPrefixOf l` for char lists, written out so that everything here
is executable. -/
def listIsPrefix (pat : List Char) (l : List Char) : Bool :=
  match pat, l with
  | [], _ => true
  | _ :: _, [] => false
  | p :: ps, c :: cs => p == c && listIsPrefix ps cs

/-- Substring search: does `pat` occur as a contiguous run inside `l`? -/
def listHasInfix (pat : List Char) : List Char → Bool
  | [] => listIsPrefix pat []
  | c :: cs => listIsPrefix pat (c :: cs) || listHasInfix pat cs

/-- Model of Rust `s.contains(pat)` (substring containment). -/
def strHasInfix (s pat : String) : Bool :=
  listHasInfix pat.data s.data

/-! ## src/error.rs -/

/-- `WorkerError` from src/error.rs. -/
inductive WorkerError where
  | transient (msg : String)
  | permanent (msg : String)
deriving DecidableEq, Repr

/-- `WorkerError::is_transient`. -/
def WorkerError.isTransient : WorkerError → Bool
  | .transient _ => true
  | .permanent _ => false

/-- `WorkerError::message`. -/
def WorkerError.message : WorkerError → String
  | .transient s => s
  | .permanent s => s

/-- `classify_publish_error` from src/error.rs: the error's display string
is classified transient iff it contains one of three substrings. -/
def classifyPublishError (s : String) : WorkerError :=
  if strHasInfix s "connection" || strHasInfix s "timeout" || strHasInfix s "broken pipe" then
    .transient s
  else
    .permanent s

/-! ## JSON model (serde_json::Value) -/

/-- serde_json `Number`: non-negative integers up to `u64::MAX` are stored
as `PosInt`, negatives down to `i64::MIN` as `NegInt`, everything else
(any number written with a fraction or exponent, and out-of-range
integers) as a float.  `as_u64` is `some` only for the `PosInt` case, so
for the model it is enough to keep the mathematical integer for the two
integer storages and a bare marker for floats. -/
inductive JNum where
  | int (i : Int)
  | float
deriving DecidableEq, Repr

/-- Model of `serde_json::Value`. -/
inductive Json where
  | null
  | bool (b : Bool)
  | num (n : JNum)
  | str (s : String)
  | arr (xs : List Json)
  | obj (fields : List (String × Json))

/-- Object field lookup (`value.get(name)` on a JSON object; `none` on
non-objects and missing fields). -/
def Json.get : Json → String → Option Json
  | .obj fields, name => go fields name
  | _, _ => none
where go : List (String × Json) → String → Option Json
  | [], _ => none
  | (k, v) :: rest, name => if k = name then some v else go rest name

/-- serde_json `Value::as_u64`: `Some` exactly when the number is stored
as a `u64`, i.e. it is an integer with `0 ≤ n < 2^64` (integers written
with a fraction, negatives and out-of-range values give `None`). -/
def Json.asU64 : Json → Option Nat
  | .num (.int i) => if 0 ≤ i ∧ i < (2:Int) ^ 64 then some i.toNat else none
  | _ => none

/-- serde_json `Value::as_str`. -/
def Json.asStr : Json → Option String
  | .str s => some s
  | _ => none

/-! ## src/protocol.rs -/

/-- `EnvelopeKind`. -/
inductive EnvelopeKind where
  | execAssign
  | execResult
  | heartbeat
  | deadLetter
deriving DecidableEq, Repr

/-- `EventEnvelopeV1` (`data` is an opaque `serde_json::Value`). -/
structure EventEnvelopeV1 where
  version : String
  kind : EnvelopeKind
  data : Json

/-- `DeadLetter` from src/protocol.rs. -/
structure DeadLetter where
  reason : String
  payloadRef : Json
  ts : String

/-- `Job`. -/
structure Job where
  type : String
  payload : Json

/-- `ExecAssignment`. -/
structure ExecAssignment where
  version : String
  assignment_id : String
  request_id : String
  tenant_id : String
  job : Job
  trace_id : Option String
  run_id : Option String
  flow_id : Option String
  step_id : Option String

/-- `ExecStatus`. -/
inductive ExecStatus where
  | success
  | error
  | timeout
  | cancelled
deriving DecidableEq, Repr

/-- `ExecResult` (`cost` is the reserved constant `0.0` everywhere in the
pipeline, so it is kept as a `Nat`; `output` is an optional JSON value). -/
structure ExecResult where
  version : String
  assignment_id : String
  request_id : String
  status : ExecStatus
  provider_id : String
  job_type : String
  output : Option Json
  latency_ms : Nat
  cost : Nat
  trace_id : Option String
  tenant_id : Option String
  run_id : Option String
  error_code : Option String
  error_message : Option String

/-- `TaskState`. -/
inductive TaskState where
  | queued
  | running
  | completed
  | failed
  | cancelled
  | timeout
deriving DecidableEq, Repr

/-- `map_status_to_task_state` from src/protocol.rs. -/
def mapStatusToTaskState : ExecStatus → TaskState
  | .success => .completed
  | .error => .failed
  | .timeout => .timeout
  | .cancelled => .cancelled

/-! ## serde decoding of envelopes and assignments

`serde_json::from_slice::<EventEnvelopeV1>` and
`from_value::<ExecAssignment>` are modelled over `Json` values: required
fields must be present with the right type, unknown fields are ignored,
optional `Option<String>` fields accept a missing field or `null` and
reject any other non-string value.  Byte-level lexing of the wire payload
is abstracted by `InPayload` below (`notJson` stands for bytes that are
not valid JSON at all, on which every `from_slice` fails). -/

/-- Decode a `kind` string into `EnvelopeKind` (serde enum rename values). -/
def decodeKind : String → Option EnvelopeKind
  | "exec_assign" => some .execAssign
  | "exec_result" => some .execResult
  | "heartbeat" => some .heartbeat
  | "dead_letter" => some .deadLetter
  | _ => none

/-- Decode `EventEnvelopeV1` from a JSON value. -/
def decodeEnvelope (j : Json) : Option EventEnvelopeV1 := do
  let v ← (j.get "version").bind Json.asStr
  let k ← (j.get "kind").bind Json.asStr
  let kind ← decodeKind k
  let data ← j.get "data"
  pure { version := v, kind := kind, data := data }

/-- Decode an optional `Option<String>` field: missing or `null` is
`none`; a string is `some`; anything else is a decode error. -/
def decodeOptString (j : Json) (name : String) : Option (Option String) :=
  match j.get name with
  | none => some none
  | some .null => some none
  | some (.str s) => some (some s)
  | some _ => none

/-- Decode `Job` from a JSON value. -/
def decodeJob (j : Json) : Option Job := do
  let t ← (j.get "type").bind Json.asStr
  let p ← j.get "payload"
  pure { type := t, payload := p }

/-- Decode `ExecAssignment` from a JSON value. -/
def decodeAssignment (j : Json) : Option ExecAssignment := do
  let v ← (j.get "version").bind Json.asStr
  let aid ← (j.get "assignment_id").bind Json.asStr
  let rid ← (j.get "request_id").bind Json.asStr
  let tid ← (j.get "tenant_id").bind Json.asStr
  let jobJson ← j.get "job"
  let job ← decodeJob jobJson
  let traceId ← decodeOptString j "trace_id"
  let runId ← decodeOptString j "run_id"
  let flowId ← decodeOptString j "flow_id"
  let stepId ← decodeOptString j "step_id"
  pure { version := v, assignment_id := aid, request_id := rid, tenant_id := tid,
         job := job, trace_id := traceId, run_id := runId, flow_id := flowId,
         step_id := stepId }

/-! ## The dedup window (struct `Dedup` in src/main.rs)

The Rust struct keeps a `HashSet` alongside a `VecDeque`; the set always
holds exactly the elements of the queue (`set.insert(key)` succeeds iff
the key is not in the queue, and every queue eviction removes the evicted
key from the set), so the embedding keeps the queue (front = oldest) and
implements `contains` as queue membership. -/

/-- `Dedup` state: FIFO queue of ids (front = oldest) plus capacity. -/
structure Dedup where
  queue : List String
  capacity : Nat
deriving DecidableEq, Repr

/-- `Dedup::new(capacity)`. -/
def Dedup.new (capacity : Nat) : Dedup :=
  { queue := [], capacity := capacity }

/-- `Dedup::contains`. -/
def Dedup.contains (d : Dedup) (key : String) : Bool :=
  d.queue.contains key

/-- `Dedup::insert`: a fresh key is pushed at the back; if the queue then
exceeds capacity its front (the oldest key) is popped. -/
def Dedup.insert (d : Dedup) (key : String) : Dedup :=
  if d.queue.contains key then d
  else if d.capacity < (d.queue ++ [key]).length then { d with queue := (d.queue ++ [key]).tail }
  else { d with queue := d.queue ++ [key] }

/-- Fold `Dedup.insert` over a list of keys. -/
def Dedup.insertAll (d : Dedup) (keys : List String) : Dedup :=
  keys.foldl Dedup.insert d

/-! ## The per-message step of the assignment pipeline (src/main.rs)

One iteration of the `if let Some(msg)` body, up to and including the
decision to spawn a task: parse cascade, dead-letter handling for
malformed payloads, dedup check (before permit acquisition), dedup
insert, permit acquisition.  Observable effects are returned explicitly;
`ts` stands for the RFC3339 timestamp string taken at the time of the
dead-letter construction. -/

/-- Wire payload of an inbound bus message: either bytes that are not
valid JSON (every `serde_json::from_slice` fails on them) or a JSON
value; `len` is the byte length of the raw payload. -/
inductive InPayload where
  | notJson (len : Nat)
  | js (j : Json) (len : Nat)

/-- An inbound message (`async_nats::Message`): subject plus payload. -/
structure InMsg where
  subject : String
  payload : InPayload

/-- Byte length of the payload (`msg.payload.len()`). -/
def InPayload.len : InPayload → Nat
  | .notJson n => n
  | .js _ n => n

/-- Result of the parse cascade at the top of the loop body:
`ok` — an assignment was obtained (either from a well-formed
`exec_assign` envelope or from a bare assignment object);
`deadletter` — a dead-letter with the given reason is written and
published, and `dlq_published_total` is incremented `inc` times
(the DECODE_ERROR branch of the source performs no increment);
`skipKind` — envelope of a non-`exec_assign` kind, logged and skipped. -/
inductive ParseOutcome where
  | ok (a : ExecAssignment)
  | deadletter (reason : String) (inc : Nat)
  | skipKind

/-- The parse cascade from src/main.rs lines 166-220: try
`EventEnvelopeV1` first; on success demand kind `exec_assign` and decode
`data` (failure → DECODE_ERROR, no counter increment); if the envelope
itself does not parse, try a bare `ExecAssignment` (failure →
PARSE_ERROR, counter incremented once). -/
def parseCascade (p : InPayload) : ParseOutcome :=
  match p with
  | .js j _ =>
    match decodeEnvelope j with
    | some env =>
      match env.kind with
      | .execAssign =>
        match decodeAssignment env.data with
        | some a => .ok a
        | none => .deadletter "DECODE_ERROR" 0
      | _ => .skipKind
    | none =>
      match decodeAssignment j with
      | some a => .ok a
      | none => .deadletter "PARSE_ERROR" 1
  | .notJson _ => .deadletter "PARSE_ERROR" 1

/-- The assignment produced by the parse cascade, when any. -/
def parsedAssignment (p : InPayload) : Option ExecAssignment :=
  match parseCascade p with
  | .ok a => some a
  | _ => none

/-- Observable effects of one loop iteration (before the spawned task
body runs). -/
structure StepEffects where
  /-- Dead letters appended to the DLQ file (`write_deadletter_to_file`). -/
  dlqFileWrites : List DeadLetter
  /-- Dead-letter envelopes published on the DLQ subject. -/
  dlqBusPublishes : List DeadLetter
  /-- Increments of the `dlq_published_total` counter. -/
  dlqCounterInc : Nat
  /-- Whether a concurrency permit was acquired. -/
  permitAcquired : Bool
  /-- The assignment handed to `tokio::spawn`, when one was. -/
  spawned : Option ExecAssignment

/-- Effects of an iteration that only logs and continues. -/
def StepEffects.none : StepEffects :=
  { dlqFileWrites := [], dlqBusPublishes := [], dlqCounterInc := 0,
    permitAcquired := false, spawned := Option.none }

/-- `payload_ref` used for malformed payloads: `{subject, len}` — a
reference, never the raw bytes. -/
def malformedPayloadRef (msg : InMsg) : Json :=
  .obj [("subject", .str msg.subject), ("len", .num (.int msg.payload.len))]

/-- One iteration of the pipeline loop body for message `msg` in dedup
state `d` (src/main.rs lines 164-276): parse; dead-letter malformed
payloads (file append, counter, bus publish); drop duplicates before any
permit is acquired; otherwise insert into the dedup window, acquire a
permit (waiting if necessary — messages are never dropped for
backpressure) and spawn the task. -/
def processMessage (d : Dedup) (msg : InMsg) (ts : String) : Dedup × StepEffects :=
  match parseCascade msg.payload with
  | .deadletter reason inc =>
    let dl : DeadLetter := { reason := reason, payloadRef := malformedPayloadRef msg, ts := ts }
    (d, { dlqFileWrites := [dl], dlqBusPublishes := [dl], dlqCounterInc := inc,
          permitAcquired := false, spawned := Option.none })
  | .skipKind => (d, StepEffects.none)
  | .ok a =>
    if d.contains a.assignment_id then
      (d, StepEffects.none)
    else
      (d.insert a.assignment_id,
       { dlqFileWrites := [], dlqBusPublishes := [], dlqCounterInc := 0,
         permitAcquired := true, spawned := some a })

/-! ## The spawned task body (src/main.rs lines 276-387)

Timeout extraction, the synthesized timeout result, and the
publish-with-retry loop.  The bus is modelled by `pubOutcome : Nat →
Option String`, giving for each publish attempt (0-based) `none` on
success or `some errMsg` with the error's display string on failure;
serialization of the result envelope is modelled by an `Option` of the
encoded bytes. -/

/-- Per-assignment timeout extraction (src/main.rs lines 278-280):
`assignment.job.payload.get("timeout_ms").and_then(as_u64).unwrap_or(default)`. -/
def timeoutMsOf (payload : Json) (defaultTimeoutMs : Nat) : Nat :=
  ((payload.get "timeout_ms").bind Json.asU64).getD defaultTimeoutMs

/-- The `ExecResult` fabricated when the deadline expires
(src/main.rs lines 284-299). -/
def mkTimeoutResult (a : ExecAssignment) (workerId : String) (timeoutMs : Nat) : ExecResult :=
  { version := "1.0"
    assignment_id := a.assignment_id
    request_id := a.request_id
    status := .timeout
    provider_id := workerId
    job_type := a.job.type
    output := Option.none
    latency_ms := timeoutMs
    cost := 0
    trace_id := a.trace_id
    tenant_id := some a.tenant_id
    run_id := a.run_id
    error_code := some "TIMEOUT"
    error_message := some "Task timed out" }

/-- Backoff before retry number `a` (src/main.rs line 337):
`min(30_000, 500 * 2^a)`.  The Rust computation saturates the
multiplication and the power in `u64`; since any saturated value exceeds
the 30 000 cap, `min 30000 (500 * 2 ^ a)` over `Nat` is extensionally the
same function. -/
def backoffMs (a : Nat) : Nat :=
  min 30000 (500 * 2 ^ a)

/-- End state of the publish-retry loop. -/
inductive PubEnd where
  | published
  | dlqSent (errMsg : String)
deriving DecidableEq, Repr

/-- The publish-retry loop (src/main.rs lines 321-374).  The source
iterates with a counter `attempt` (number of prior failures) and retries
while the error is transient and `attempt < max_retries`; since `attempt`
only ever increments while strictly below `max_retries`, the loop is the
structural recursion below on `retriesLeft = max_retries - attempt`
(`retriesLeft = 0` iff `attempt < max_retries` fails).  Returns how the
loop ended together with the list of backoff sleeps (in ms) performed,
in order.  Note the source increments `attempt` before computing the
backoff, so the sleep after the k-th failure (k = 0, 1, …) is
`backoffMs (k+1)`. -/
def publishLoopGo (pubOutcome : Nat → Option String) : Nat → Nat → PubEnd × List Nat
  | attempt, 0 =>
    match pubOutcome attempt with
    | Option.none => (.published, [])
    | some e => (.dlqSent e, [])
  | attempt, retriesLeft + 1 =>
    match pubOutcome attempt with
    | Option.none => (.published, [])
    | some e =>
      if (classifyPublishError e).isTransient then
        let rest := publishLoopGo pubOutcome (attempt + 1) retriesLeft
        (rest.1, backoffMs (attempt + 1) :: rest.2)
      else
        (.dlqSent e, [])

/-- The publish-retry loop started at `attempt = 0`. -/
def publishLoop (pubOutcome : Nat → Option String) (maxRetries : Nat) : PubEnd × List Nat :=
  publishLoopGo pubOutcome 0 maxRetries

/-- `Option<String>` to JSON, as `serde_json::json!` renders an
`Option` (None → null). -/
def optStrJson : Option String → Json
  | Option.none => .null
  | some s => .str s

/-- Observable effects of the spawned task body after the result is
built: how many result envelopes were published on the result subject,
which dead letters were appended to the DLQ file and published on the
DLQ subject, counter increments, the backoff sleeps, and whether the
permit was released. -/
structure TaskEffects where
  resultPublished : Nat
  dlqFileWrites : List DeadLetter
  dlqBusPublishes : List DeadLetter
  dlqCounterInc : Nat
  sleepsMs : List Nat
  permitReleased : Bool

/-- The publish phase of the task body (src/main.rs lines 317-386) for a
result `r`: serialize the `exec_result` envelope (`ser` is the outcome of
`serde_json::to_vec`); on success run the publish-retry loop, producing
either one published result or one PUBLISH_ERROR dead letter (file +
counter + DLQ-subject publish); on serialization failure only log.  The
permit is released on every path (the `permit` guard is dropped at the
end of the task). -/
def taskBody (r : ExecResult) (ser : Option (List Nat))
    (pubOutcome : Nat → Option String) (maxRetries : Nat) (ts : String) : TaskEffects :=
  match ser with
  | some _ =>
    match publishLoop pubOutcome maxRetries with
    | (.published, sleeps) =>
      { resultPublished := 1, dlqFileWrites := [], dlqBusPublishes := [],
        dlqCounterInc := 0, sleepsMs := sleeps, permitReleased := true }
    | (.dlqSent _, sleeps) =>
      let dl : DeadLetter :=
        { reason := "PUBLISH_ERROR",
          payloadRef := .obj [("assignment_id", .str r.assignment_id),
                              ("trace_id", optStrJson r.trace_id)],
          ts := ts }
      { resultPublished := 0, dlqFileWrites := [dl], dlqBusPublishes := [dl],
        dlqCounterInc := 1, sleepsMs := sleeps, permitReleased := true }
  | Option.none =>
    { resultPublished := 0, dlqFileWrites := [], dlqBusPublishes := [],
      dlqCounterInc := 0, sleepsMs := [], permitReleased := true }

/-! ## src/dlq.rs — the on-disk DLQ sink

The filesystem state relevant to the sink is the size of the active file
(`none` when the file does not exist yet) and the rotated segments with
their modification day and size.  Rotated names carry a second-resolution
UTC stamp, and sorting by name is chronological, so the rotated list is
kept in rotation order (oldest first) and every rotation appends at the
back.  `now` is the current time in whole days (only day-granularity
enters the age check). -/

/-- Limits passed to `write_deadletter_to_file` (from `Config`). -/
structure DlqConfig where
  maxBytes : Nat
  maxRotations : Nat
  totalMaxBytes : Nat
  maxAgeDays : Option Nat
deriving DecidableEq, Repr

/-- A rotated segment: modification time (in days) and size in bytes. -/
structure RotFile where
  mtimeDay : Nat
  size : Nat
deriving DecidableEq, Repr

/-- On-disk DLQ state. -/
structure DlqState where
  active : Option Nat
  rotated : List RotFile
deriving DecidableEq, Repr

/-- The empty directory before the first write. -/
def DlqState.init : DlqState :=
  { active := Option.none, rotated := [] }

/-- Sum of the sizes of the rotated segments. -/
def sumSizes (files : List RotFile) : Nat :=
  (files.map RotFile.size).sum

/-- The `while rotated_files.len() > max_rotations` loop of
`enforce_limits`: delete the lexicographically smallest (oldest) rotated
file until the count cap holds (the loop `break`s when the list is
empty). -/
def dropOldestCount : List RotFile → Nat → List RotFile
  | [], _ => []
  | f :: rest, maxRotations =>
    if maxRotations < (f :: rest).length then dropOldestCount rest maxRotations
    else f :: rest

/-- The `while total > total_max_bytes` loop of `enforce_limits`:
`total` is the running byte total (kept in sync with `sumSizes files` by
the caller), decremented by the size of each deleted oldest file; the
loop `break`s when the list is empty.  The source uses `saturating_sub`,
which coincides with `Nat` subtraction. -/
def dropOldestTotal : List RotFile → Nat → Nat → List RotFile
  | [], _, _ => []
  | f :: rest, total, totalMaxBytes =>
    if totalMaxBytes < total then dropOldestTotal rest (total - f.size) totalMaxBytes
    else f :: rest

/-- `enforce_limits` from src/dlq.rs: enumerate the rotated siblings
(in name = chronological order), optionally delete segments older than
`max_age_days`, then enforce the rotation-count cap and the total-bytes
cap by deleting oldest-first. -/
def enforceLimits (cfg : DlqConfig) (nowDay : Nat) (files : List RotFile) : List RotFile :=
  let files :=
    match cfg.maxAgeDays with
    | some days => files.filter fun f => !(days < nowDay - f.mtimeDay)
    | Option.none => files
  let files := dropOldestCount files cfg.maxRotations
  dropOldestTotal files (sumSizes files) cfg.totalMaxBytes

/-- `rotate_if_needed` from src/dlq.rs: when the active file exists and
its size has reached `max_bytes`, rename it to a timestamped sibling
(appended at the back of the rotation order) and enforce the limits. -/
def rotateIfNeeded (cfg : DlqConfig) (nowDay : Nat) (st : DlqState) : DlqState :=
  match st.active with
  | Option.none => st
  | some sz =>
    if cfg.maxBytes ≤ sz then
      { active := Option.none,
        rotated := enforceLimits cfg nowDay (st.rotated ++ [{ mtimeDay := nowDay, size := sz }]) }
    else st

/-- `write_deadletter_to_file` from src/dlq.rs: rotate if needed, then
append the serialized record plus the terminating newline to the active
file (created if absent).  `lineLen` is the byte length of the JSON line
without the newline. -/
def writeDeadletterToFile (cfg : DlqConfig) (nowDay : Nat) (st : DlqState) (lineLen : Nat) :
    DlqState :=
  let st := rotateIfNeeded cfg nowDay st
  { st with active := some (st.active.getD 0 + lineLen + 1) }

/-- A sequence of appends, each given as `(nowDay, lineLen)`. -/
def dlqAppendAll (cfg : DlqConfig) (st : DlqState) (appends : List (Nat × Nat)) : DlqState :=
  appends.foldl (fun s p => writeDeadletterToFile cfg p.1 s p.2) st

/-! ## src/handlers/fs.rs — filesystem blob handlers

Paths are Unix paths modelled as strings: `Path::is_absolute` is
"starts with `/`", `Path::join` of a relative path onto a nonempty base
that does not end in a separator appends with a `/` separator, and
`Path::parent` follows `Path::components` normalization: the
`/`-separated components of a path are its non-empty segments other
than `.` (a lone leading `.` does count, as `CurDir`, and a leading `/`
counts as the root), and `parent` drops the last component and returns
the slice of the original text up to the end of the component before
it, or `None` for an empty or root-only path.  The filesystem itself is
a parameter (`FsEnv`), and each handler returns the list of paths it
touched alongside its result tuple. -/

/-- `Path::is_absolute` on Unix. -/
def isAbsolutePath (s : String) : Bool :=
  match s.data with
  | '/' :: _ => true
  | _ => false

/-- `Path::join` for a relative right-hand side. -/
def joinPath (base p : String) : String :=
  base ++ "/" ++ p

/-- One pass of `Path::components` right-normalization, on the reversed
character list: a trailing separator or a trailing `.` segment is not a
component and is dropped, while a lone leading `.` is one (`CurDir`)
and is kept, as are `..` and names that merely end in `.`.  The result
is the reversed text ending at the path's last component (or empty if
the path has no components beyond a possible root). -/
def shed : List Char → List Char
  | [] => []
  | c :: rest =>
    if c = '/' then shed rest
    else if c = '.' then
      match rest with
      | [] => ['.']
      | d :: _ => if d = '/' then shed rest else c :: rest
    else c :: rest

/-- `Path::parent` given the root flag and the `shed`-normalized
reversed text `r`: no component left means `None`; a lone `CurDir`
leaves `""`; otherwise the last component (the leading slash-free run
of `r`) is dropped and the text before it is normalized again — down
to `/` when only the root remains (a root written as several slashes
is rendered as a single `/`), `""` when nothing remains, and `.` when
only the leading `CurDir` remains. -/
def rustParentAux (hasRoot : Bool) (r : List Char) : Option String :=
  if r = [] then Option.none
  else if r = ['.'] then some ""
  else
    match r.dropWhile (fun c => c ≠ '/') with
    | [] => some ""
    | _ :: restRev =>
      if shed restRev = [] then if hasRoot then some "/" else some ""
      else if shed restRev = ['.'] then some "."
      else some (String.mk (shed restRev).reverse)

/-- `Path::parent` on Unix. -/
def rustParent (s : String) : Option String :=
  rustParentAux (isAbsolutePath s) (shed s.data.reverse)

/-- The base64 alphabet of the STANDARD engine. -/
def b64Alphabet : List Char :=
  "ABCDEFGHIJKLMNOPQRSTUVWXYZabcdefghijklmnopqrstuvwxyz0123456789+/".data

/-- Sextet to base64 character. -/
def b64Char (n : Nat) : Char :=
  b64Alphabet.getD n 'A'

/-- Base64 character to sextet. -/
def b64Index (c : Char) : Option Nat :=
  b64Alphabet.findIdx? fun d => d = c

/-- Standard base64 encoding with padding, three input bytes per four
output characters. -/
def b64EncodeChunks : List Nat → List Char
  | [] => []
  | [a] => [b64Char (a / 4), b64Char (a % 4 * 16), '=', '=']
  | [a, b] => [b64Char (a / 4), b64Char (a % 4 * 16 + b / 16), b64Char (b % 16 * 4), '=']
  | a :: b :: c :: rest =>
    b64Char (a / 4) :: b64Char (a % 4 * 16 + b / 16) :: b64Char (b % 16 * 4 + c / 64) ::
      b64Char (c % 64) :: b64EncodeChunks rest

/-- `general_purpose::STANDARD.encode`. -/
def b64Encode (bytes : List Nat) : String :=
  String.mk (b64EncodeChunks bytes)

/-- Decode one four-character base64 group ( `none` on any invalid
character, and on padding carrying non-zero trailing bits, which the
STANDARD engine rejects). -/
def b64DecodeChunk (c1 c2 c3 c4 : Char) : Option (List Nat) := do
  let a ← b64Index c1
  let b ← b64Index c2
  if c3 = '=' then
    if c4 = '=' ∧ b % 16 = 0 then pure [a * 4 + b / 16] else Option.none
  else
    let c ← b64Index c3
    if c4 = '=' then
      if c % 4 = 0 then pure [a * 4 + b / 16, b % 16 * 16 + c / 4] else Option.none
    else
      let d ← b64Index c4
      pure [a * 4 + b / 16, b % 16 * 16 + c / 4, c % 4 * 64 + d]

/-- `general_purpose::STANDARD.decode` over the character list: groups
of four, padding only in the final group. -/
def b64DecodeAux : List Char → Option (List Nat)
  | [] => some []
  | c1 :: c2 :: c3 :: c4 :: rest => do
    let bytes ← b64DecodeChunk c1 c2 c3 c4
    if rest ≠ [] ∧ (c3 = '=' ∨ c4 = '=') then Option.none
    else
      let tail ← b64DecodeAux rest
      pure (bytes ++ tail)
  | _ => Option.none

/-- `general_purpose::STANDARD.decode`. -/
def b64Decode (s : String) : Option (List Nat) :=
  b64DecodeAux s.data

/-- UTF-8 bytes of a string (`str::as_bytes`). -/
def strBytes (s : String) : List Nat :=
  s.toUTF8.toList.map UInt8.toNat

/-- A filesystem access performed by a handler. -/
inductive FsOp where
  | read (path : String)
  | write (path : String)
  | createDirAll (path : String)
deriving DecidableEq, Repr

/-- The path an access touches. -/
def FsOp.path : FsOp → String
  | .read p => p
  | .write p => p
  | .createDirAll p => p

/-- Outcomes of the filesystem operations, supplied by the environment:
`read` yields the file bytes or an error display string; `write` and
`createDirAll` yield `none` on success or an error display string. -/
structure FsEnv where
  read : String → Except String (List Nat)
  write : String → List Nat → Option String
  createDirAll : String → Option String

/-- `HandlerResult` = `(status, job_type, output, error_code, error_message)`. -/
def HandlerResult := ExecStatus × String × Option Json × Option String × Option String

/-- The path-confinement test of both handlers (src/handlers/fs.rs lines
19 and 62): reject when the string contains `..` anywhere or the path is
absolute. -/
def pathRejected (p : String) : Bool :=
  strHasInfix p ".." || isAbsolutePath p

/-- `handle_fs_blob_get`, returning the result tuple and the accesses
performed. -/
def handleFsBlobGet (env : FsEnv) (baseDir : String) (job : Job) :
    HandlerResult × List FsOp :=
  match (job.payload.get "path").bind Json.asStr with
  | Option.none =>
    ((.error, job.type, Option.none, some "MISSING_PATH",
      some "Missing 'path' in payload"), [])
  | some pathStr =>
    if pathRejected pathStr then
      ((.error, job.type, Option.none, some "INVALID_PATH",
        some "Path traversal or absolute path not allowed"), [])
    else
      let fullPath := joinPath baseDir pathStr
      match env.read fullPath with
      | .ok content =>
        ((.success, job.type,
          some (.obj [("path", .str pathStr), ("bytes", .str (b64Encode content)),
                      ("size", .num (.int content.length))]),
          Option.none, Option.none), [.read fullPath])
      | .error e =>
        ((.error, job.type, Option.none, some "FILE_READ_ERROR", some e), [.read fullPath])

/-- `handle_fs_blob_put`, returning the result tuple and the accesses
performed. -/
def handleFsBlobPut (env : FsEnv) (baseDir : String) (job : Job) :
    HandlerResult × List FsOp :=
  match (job.payload.get "path").bind Json.asStr with
  | Option.none =>
    ((.error, job.type, Option.none, some "MISSING_PATH",
      some "Missing 'path' in payload"), [])
  | some pathStr =>
    if pathRejected pathStr then
      ((.error, job.type, Option.none, some "INVALID_PATH",
        some "Path traversal or absolute path not allowed"), [])
    else
      let fullPath := joinPath baseDir pathStr
      let contentBytes :=
        match (job.payload.get "bytes").bind Json.asStr with
        | some b64 =>
          match b64Decode b64 with
          | some bs => Except.ok bs
          | Option.none => Except.error ("BASE64_DECODE_ERROR", "Invalid symbol or padding")
        | Option.none =>
          match (job.payload.get "content").bind Json.asStr with
          | some contentStr => Except.ok (strBytes contentStr)
          | Option.none =>
            Except.error ("MISSING_CONTENT",
              "Missing 'bytes' (base64) or 'content' (string) in payload")
      match contentBytes with
      | .error (code, msg) =>
        ((.error, job.type, Option.none, some code, some msg), [])
      | .ok bytes =>
        match rustParent fullPath with
        | some parent =>
          match env.createDirAll parent with
          | some e =>
            ((.error, job.type, Option.none, some "DIR_CREATE_ERROR", some e),
             [.createDirAll parent])
          | Option.none =>
            match env.write fullPath bytes with
            | Option.none =>
              ((.success, job.type,
                some (.obj [("path", .str pathStr), ("size", .num (.int bytes.length))]),
                Option.none, Option.none),
               [.createDirAll parent, .write fullPath])
            | some e =>
              ((.error, job.type, Option.none, some "FILE_WRITE_ERROR", some e),
               [.createDirAll parent, .write fullPath])
        | Option.none =>
          match env.write fullPath bytes with
          | Option.none =>
            ((.success, job.type,
              some (.obj [("path", .str pathStr), ("size", .num (.int bytes.length))]),
              Option.none, Option.none),
             [.write fullPath])
          | some e =>
            ((.error, job.type, Option.none, some "FILE_WRITE_ERROR", some e),
             [.write fullPath])

/-! ## src/observability/pii.rs — email masking

`EMAIL_REGEX` is `(?i)[a-z0-9._%+-]+@[a-z0-9.-]+\.[a-z]{2,4}` and
`mask_pii` is `EMAIL_REGEX.replace_all(input, "***@***.***")`.

The regex crate gives leftmost matches with Perl-style greedy
backtracking, and `replace_all` resumes scanning right after each match.
For this pattern that semantics is deterministic and is implemented
below: the local part is forced (it is the maximal run of local
characters — `@` is not a local character, so no backtracking happens
across the `@`); after the `@` the domain repetition is tried greedily
from its maximal length downwards, and for the first domain length
followed by a literal `.` and at least two alphabetic characters the TLD
takes up to four of them.

Under `(?i)` with the crate's default Unicode simple case folding,
`[a-z]` matches `a-z`, `A-Z`, `ſ` (U+017F) and `K` (U+212A). -/

/-- `[a-z]` under `(?i)` with Unicode simple case folding. -/
def isAlphaCI (c : Char) : Bool :=
  ('a' ≤ c && c ≤ 'z') || ('A' ≤ c && c ≤ 'Z') || c = 'ſ' || c = Char.ofNat 0x212A

/-- `[a-z0-9._%+-]` under `(?i)`: the local-part character class. -/
def isLocalChar (c : Char) : Bool :=
  isAlphaCI c || ('0' ≤ c && c ≤ '9') || c = '.' || c = '_' || c = '%' || c = '+' || c = '-'

/-- `[a-z0-9.-]` under `(?i)`: the domain character class. -/
def isDomainChar (c : Char) : Bool :=
  isAlphaCI c || ('0' ≤ c && c ≤ '9') || c = '.' || c = '-'

/-- Greedy `[a-z]{2,4}` at the head of `cs`: the TLD length, `some` iff
at least two alphabetic characters follow. -/
def tldLen (cs : List Char) : Option Nat :=
  let k := min 4 (cs.takeWhile isAlphaCI).length
  if 2 ≤ k then some k else Option.none

/-- Backtracking search for the domain split after the `@`: try domain
lengths from `d` downward; for domain length `d` the character at index
`d` must be the literal `.` and a TLD must follow at index `d+1`.
Returns the total length `domain + 1 + tld` of the part after the `@`. -/
def goDom (after : List Char) : Nat → Option Nat
  | 0 => Option.none
  | d + 1 =>
    if after.get? (d + 1) = some '.' then
      match tldLen (after.drop (d + 2)) with
      | some k => some ((d + 1) + 1 + k)
      | Option.none => goDom after d
    else goDom after d

/-- The regex match attempt anchored at the head of `cs`: length of the
match when `EMAIL_REGEX` matches a prefix of `cs`.  The local part is
the maximal run of local characters (`@` is not a local character, so
the engine never backtracks across it), then the literal `@`, then the
domain search. -/
def matchAt (cs : List Char) : Option Nat :=
  if (cs.takeWhile isLocalChar).isEmpty then Option.none
  else
    match cs.get? (cs.takeWhile isLocalChar).length with
    | some '@' =>
      match goDom (cs.drop ((cs.takeWhile isLocalChar).length + 1))
          ((cs.drop ((cs.takeWhile isLocalChar).length + 1)).takeWhile isDomainChar).length with
      | some m => some ((cs.takeWhile isLocalChar).length + 1 + m)
      | Option.none => Option.none
    | _ => Option.none

/-- The replacement string. -/
def repStr : String := "***@***.***"

/-- `replace_all` scanning: at each position try the anchored match;
on a match of length `n ≥ 1` (the pattern cannot match empty) emit the
replacement and resume after the match, else emit the character and
advance.  `matchAt (c :: t) = some n` always has `n ≥ 1`
(`matchAt_pos` below), so dropping `n - 1` from `t` is dropping `n`
from `c :: t`. -/
def maskAux : List Char → List Char
  | [] => []
  | c :: t =>
    match matchAt (c :: t) with
    | some n => repStr.data ++ maskAux (t.drop (n - 1))
    | Option.none => c :: maskAux t
termination_by cs => cs.length
decreasing_by
  · simp only [List.length_drop, List.length_cons]
    omega
  · simp

/-- `mask_pii`. -/
def maskPii (s : String) : String :=
  String.mk (maskAux s.data)

/-- Structural characterization of a full match of `EMAIL_REGEX`:
a non-empty local part, `@`, a non-empty domain, a literal `.`, and a
TLD of two to four alphabetic characters. -/
def IsEmail (m : List Char) : Prop :=
  ∃ loc dom tld, m = loc ++ '@' :: (dom ++ '.' :: tld) ∧
    loc ≠ [] ∧ (∀ c ∈ loc, isLocalChar c = true) ∧
    dom ≠ [] ∧ (∀ c ∈ dom, isDomainChar c = true) ∧
    2 ≤ tld.length ∧ tld.length ≤ 4 ∧ (∀ c ∈ tld, isAlphaCI c = true)

/-- Executable test for `IsEmail`: the local part is forced to be the
run before the first `@`, the domain split is searched exhaustively. -/
def isEmailB (m : List Char) : Bool :=
  match m.drop (m.takeWhile fun c => c ≠ '@').length with
  | '@' :: rest =>
    (!(m.takeWhile fun c => c ≠ '@').isEmpty) &&
      (m.takeWhile fun c => c ≠ '@').all isLocalChar &&
      ((List.range rest.length).any fun d =>
        decide (0 < d) && (rest.take d).all isDomainChar &&
        (rest.get? d = some '.') &&
        decide (2 ≤ rest.length - (d + 1)) && decide (rest.length - (d + 1) ≤ 4) &&
        (rest.drop (d + 1)).all isAlphaCI)
  | _ => false

/-- Executable test: does any substring of `s` fully match
`EMAIL_REGEX`? -/
def hasEmailSub (s : String) : Bool :=
  s.data.tails.any fun t => (List.range (t.length + 1)).any fun n => isEmailB (t.take n)

/-! # Theorems -/

/-! ## Claim C10 — transient classification is a case-sensitive substring
test on the display string -/

/-- Claim C10: `classify_publish_error` is a pure function of the error's
display string; its transient/permanent decision is exactly the
case-sensitive substring test for `"connection"`, `"timeout"`,
`"broken pipe"`; capitalized `"Connection"`/`"Timeout"` messages are
classified permanent, lowercase ones transient; the message is carried
through unchanged. -/
theorem claim10_classify_substring :
    (∀ s, (classifyPublishError s).isTransient =
      (strHasInfix s "connection" || strHasInfix s "timeout" || strHasInfix s "broken pipe")) ∧
    (∀ s, (classifyPublishError s).message = s) ∧
    (classifyPublishError "Connection reset by peer").isTransient = false ∧
    (classifyPublishError "Timeout waiting for response").isTransient = false ∧
    (classifyPublishError "connection reset by peer").isTransient = true ∧
    (classifyPublishError "request timeout").isTransient = true ∧
    (classifyPublishError "broken pipe (os error 32)").isTransient = true := by
  refine ⟨?_, ?_, by decide, by decide, by decide, by decide, by decide⟩
  · intro s
    unfold classifyPublishError
    split
    · next h => simp [WorkerError.isTransient, h]
    · next h =>
        rw [Bool.not_eq_true] at h
        simp [WorkerError.isTransient, h]
  · intro s
    unfold classifyPublishError
    split <;> rfl

/-! ## Claim C2 — effective deadline and the synthesized timeout result -/

/-- Modelled from the amended claim: the effective deadline is
`timeout_ms` when that field is an integer JSON number representable as a
`u64` — including zero — and `default_job_timeout_ms` otherwise. -/
def timeoutMsSpec (payload : Json) (defaultTimeoutMs : Nat) : Nat :=
  match payload.get "timeout_ms" with
  | some (.num (.int i)) => if 0 ≤ i ∧ i < (2:Int) ^ 64 then i.toNat else defaultTimeoutMs
  | _ => defaultTimeoutMs

/-- Claim C2 counterexample: the claim says a `timeout_ms` of zero falls
back to the default; with `timeout_ms = 0` and a default of 30 000 the
code computes an effective deadline of 0, not 30 000. -/
theorem claim2_counterexample :
    timeoutMsOf (Json.obj [("timeout_ms", Json.num (.int 0))]) 30000 = 0 ∧
    (0 : Nat) ≠ 30000 := by
  exact ⟨rfl, by decide⟩

/-- Claim C2 (amended): the effective deadline is
`assignment.job.payload.timeout_ms` whenever that field is an integer
JSON number representable as a `u64` — including zero — and
`default_job_timeout_ms` otherwise (absent, non-numeric, fractional,
negative, out of `u64` range); on deadline expiry the fabricated result
has `status=timeout`, `error_code=TIMEOUT`,
`error_message="Task timed out"`, and `latency_ms` equal to the
effective deadline in milliseconds. -/
theorem claim2_amended :
    (∀ p d, timeoutMsOf p d = timeoutMsSpec p d) ∧
    (∀ a w t, (mkTimeoutResult a w t).status = .timeout ∧
      (mkTimeoutResult a w t).error_code = some "TIMEOUT" ∧
      (mkTimeoutResult a w t).error_message = some "Task timed out" ∧
      (mkTimeoutResult a w t).latency_ms = t ∧
      (mkTimeoutResult a w t).assignment_id = a.assignment_id) ∧
    timeoutMsOf (Json.obj []) 30000 = 30000 ∧
    timeoutMsOf (Json.obj [("timeout_ms", Json.str "50")]) 30000 = 30000 ∧
    timeoutMsOf (Json.obj [("timeout_ms", Json.num (.int (-7)))]) 30000 = 30000 ∧
    timeoutMsOf (Json.obj [("timeout_ms", Json.num .float)]) 30000 = 30000 ∧
    timeoutMsOf (Json.obj [("timeout_ms", Json.num (.int 250))]) 30000 = 250 := by
  refine ⟨?_, fun a w t => ⟨rfl, rfl, rfl, rfl, rfl⟩, rfl, rfl, ?_, rfl, rfl⟩
  · intro p d
    unfold timeoutMsOf timeoutMsSpec
    cases h : p.get "timeout_ms" with
    | none => rfl
    | some v =>
      cases v with
      | num n =>
        cases n with
        | int i =>
          by_cases hc : 0 ≤ i ∧ i < (2:Int) ^ 64 <;>
            simp [Json.asU64, hc] <;> split <;> rfl
        | float => rfl
      | null => rfl
      | bool b => rfl
      | str s => rfl
      | arr xs => rfl
      | obj fs => rfl
  · show timeoutMsOf (Json.obj [("timeout_ms", Json.num (.int (-7)))]) 30000 = 30000
    rfl

/-! ## Claims C3 and C1 — publish-with-retry and the exactly-one property
of the task body -/

/-- Full characterization of the publish-retry loop from any attempt
counter: the i-th sleep happens after the i-th consecutive failure, is
`backoffMs (attempt + i + 1)`, and is only taken for a transient error
within the retry budget; the loop ends `published` exactly when the
attempt after the sleeps succeeds, and ends in the DLQ branch exactly
when that attempt fails with a permanent error or an exhausted budget. -/
theorem publishLoopGo_char (o : Nat → Option String) :
    ∀ (r a : Nat),
      (∀ i, i < (publishLoopGo o a r).2.length →
        ((publishLoopGo o a r).2.get? i = some (backoffMs (a + i + 1)) ∧
         ∃ e, o (a + i) = some e ∧ (classifyPublishError e).isTransient = true ∧ i < r)) ∧
      ((publishLoopGo o a r).1 = .published →
        o (a + (publishLoopGo o a r).2.length) = Option.none) ∧
      (∀ e, (publishLoopGo o a r).1 = .dlqSent e →
        o (a + (publishLoopGo o a r).2.length) = some e ∧
        ((classifyPublishError e).isTransient = false ∨
          r ≤ (publishLoopGo o a r).2.length)) := by
  intro r
  induction r with
  | zero =>
    intro a
    cases h : o a with
    | none =>
      refine ⟨?_, ?_, ?_⟩ <;> simp [publishLoopGo, h]
    | some e =>
      refine ⟨?_, ?_, ?_⟩ <;> simp [publishLoopGo, h]
  | succ r ih =>
    intro a
    cases h : o a with
    | none =>
      refine ⟨?_, ?_, ?_⟩ <;> simp [publishLoopGo, h]
    | some e =>
      by_cases ht : (classifyPublishError e).isTransient = true
      · have hgo : publishLoopGo o a (r + 1) =
            ((publishLoopGo o (a + 1) r).1,
             backoffMs (a + 1) :: (publishLoopGo o (a + 1) r).2) := by
          simp [publishLoopGo, h, ht]
        obtain ⟨ih1, ih2, ih3⟩ := ih (a + 1)
        refine ⟨?_, ?_, ?_⟩
        · intro i hi
          rw [hgo] at hi ⊢
          simp only [List.length_cons] at hi
          cases i with
          | zero =>
            refine ⟨by simp, e, by simpa using h, ht, Nat.succ_pos r⟩
          | succ i =>
            have hi' : i < (publishLoopGo o (a + 1) r).2.length := by omega
            obtain ⟨hg, e', he', htr', hir⟩ := ih1 i hi'
            refine ⟨?_, e', ?_, htr', by omega⟩
            · simpa [show a + 1 + i + 1 = a + (i + 1) + 1 by omega] using hg
            · simpa [show a + 1 + i = a + (i + 1) by omega] using he'
        · intro hp
          rw [hgo] at hp ⊢
          simp only [List.length_cons]
          have := ih2 hp
          simpa [show a + 1 + (publishLoopGo o (a + 1) r).2.length =
            a + ((publishLoopGo o (a + 1) r).2.length + 1) by omega] using this
        · intro e' hp
          rw [hgo] at hp ⊢
          simp only [List.length_cons]
          obtain ⟨h1, h2⟩ := ih3 e' hp
          constructor
          · simpa [show a + 1 + (publishLoopGo o (a + 1) r).2.length =
              a + ((publishLoopGo o (a + 1) r).2.length + 1) by omega] using h1
          · rcases h2 with h2 | h2
            · exact Or.inl h2
            · exact Or.inr (by omega)
      · have ht' : (classifyPublishError e).isTransient = false := by
          rw [Bool.not_eq_true] at ht; exact ht
        have hgo : publishLoopGo o a (r + 1) = (.dlqSent e, []) := by
          simp [publishLoopGo, h, ht']
        refine ⟨?_, ?_, ?_⟩ <;> rw [hgo]
        · intro i hi; simp at hi
        · intro hp; exact absurd hp (by simp)
        · intro e' hp
          have : e' = e := by cases hp; rfl
          subst this
          exact ⟨by simpa using h, Or.inl ht'⟩

/-- Claim C3 counterexample: for a permanently failing transient error
(`"connection reset by peer"`) and `result_publish_max_retries = 3` the
code sleeps 1000, 2000, 4000 ms, whereas the claim's formula
`min(30_000, 500·2^attempt)` with `attempt` counting prior failed
attempts from 0 predicts 500, 1000, 2000 ms. -/
theorem claim3_counterexample :
    (publishLoop (fun _ => some "connection reset by peer") 3).2 = [1000, 2000, 4000] ∧
    [1000, 2000, 4000] ≠ [backoffMs 0, backoffMs 1, backoffMs 2] := by
  constructor
  · decide
  · decide

/-- Claim C3 (amended): publish-failure classification is the substring
test of `classify_publish_error`; a transient error with
`attempt < result_publish_max_retries` (attempt counting prior failed
attempts from 0) causes a sleep of `min(30_000, 500·2^(attempt+1))` ms
and a retry; otherwise the task appends exactly one DLQ record with
reason `PUBLISH_ERROR` and `payload_ref = {assignment_id, trace_id}`,
publishes it on the DLQ subject, increments `dlq_published_total` once,
and stops — never two DLQ entries for one failure, and none at all when
some attempt succeeds. -/
theorem claim3_amended :
    (∀ (o : Nat → Option String) (m i : Nat), i < (publishLoop o m).2.length →
      ((publishLoop o m).2.get? i = some (backoffMs (i + 1)) ∧
       ∃ e, o i = some e ∧ (classifyPublishError e).isTransient = true ∧ i < m)) ∧
    (∀ (o : Nat → Option String) (m : Nat), (publishLoop o m).1 = .published →
      o (publishLoop o m).2.length = Option.none) ∧
    (∀ (o : Nat → Option String) (m : Nat) (e : String),
      (publishLoop o m).1 = .dlqSent e →
      o (publishLoop o m).2.length = some e ∧
      ((classifyPublishError e).isTransient = false ∨ m ≤ (publishLoop o m).2.length)) ∧
    (∀ (res : ExecResult) (ser : List Nat) (o : Nat → Option String) (m : Nat) (ts e : String),
      (publishLoop o m).1 = .dlqSent e →
      (taskBody res (some ser) o m ts).dlqFileWrites =
        [{ reason := "PUBLISH_ERROR",
           payloadRef := .obj [("assignment_id", .str res.assignment_id),
                               ("trace_id", optStrJson res.trace_id)],
           ts := ts }] ∧
      (taskBody res (some ser) o m ts).dlqBusPublishes =
        (taskBody res (some ser) o m ts).dlqFileWrites ∧
      (taskBody res (some ser) o m ts).dlqCounterInc = 1 ∧
      (taskBody res (some ser) o m ts).resultPublished = 0) ∧
    (∀ (res : ExecResult) (ser : List Nat) (o : Nat → Option String) (m : Nat) (ts : String),
      (publishLoop o m).1 = .published →
      (taskBody res (some ser) o m ts).dlqFileWrites = [] ∧
      (taskBody res (some ser) o m ts).dlqBusPublishes = [] ∧
      (taskBody res (some ser) o m ts).dlqCounterInc = 0 ∧
      (taskBody res (some ser) o m ts).resultPublished = 1) := by
  have hchar := publishLoopGo_char
  refine ⟨?_, ?_, ?_, ?_, ?_⟩
  · intro o m i hi
    have h := (hchar o m 0).1 i (by simpa [publishLoop] using hi)
    simpa [publishLoop] using h
  · intro o m hp
    have h := (hchar o m 0).2.1 (by simpa [publishLoop] using hp)
    simpa [publishLoop] using h
  · intro o m e hp
    have h := (hchar o m 0).2.2 e (by simpa [publishLoop] using hp)
    simpa [publishLoop] using h
  · intro res ser o m ts e hp
    unfold taskBody
    rcases hq : publishLoop o m with ⟨pe, sleeps⟩
    rw [hq] at hp
    cases pe with
    | published => cases hp
    | dlqSent e' => exact ⟨rfl, rfl, rfl, rfl⟩
  · intro res ser o m ts hp
    unfold taskBody
    rcases hq : publishLoop o m with ⟨pe, sleeps⟩
    rw [hq] at hp
    cases pe with
    | published => exact ⟨rfl, rfl, rfl, rfl⟩
    | dlqSent e' => cases hp

/-- Claim C3 witness: the amended claim evaluated at the concrete outcome
`"broken pipe (os error 32)"` on every attempt with one allowed retry:
the single sleep is `backoffMs 1 = 1000` ms, and the task produces
exactly one PUBLISH_ERROR dead letter. -/
theorem claim3_witness :
    ((publishLoop (fun _ => some "broken pipe (os error 32)") 1).2.get? 0 =
      some (backoffMs (0 + 1)) ∧
     ∃ e, (fun _ => some "broken pipe (os error 32)" : Nat → Option String) 0 = some e ∧
       (classifyPublishError e).isTransient = true ∧ 0 < 1) ∧
    ((taskBody (mkTimeoutResult
        { version := "1.0", assignment_id := "a1", request_id := "r1", tenant_id := "t1",
          job := { type := "sleep", payload := Json.obj [] },
          trace_id := some "tr1", run_id := Option.none, flow_id := Option.none,
          step_id := Option.none } "w1" 50)
        (some [123]) (fun _ => some "broken pipe (os error 32)") 1 "ts").dlqCounterInc = 1 ∧
     (taskBody (mkTimeoutResult
        { version := "1.0", assignment_id := "a1", request_id := "r1", tenant_id := "t1",
          job := { type := "sleep", payload := Json.obj [] },
          trace_id := some "tr1", run_id := Option.none, flow_id := Option.none,
          step_id := Option.none } "w1" 50)
        (some [123]) (fun _ => some "broken pipe (os error 32)") 1 "ts").resultPublished = 0) := by
  constructor
  · exact claim3_amended.1 (fun _ => some "broken pipe (os error 32)") 1 0 (by decide)
  · have h := claim3_amended.2.2.2.1 (mkTimeoutResult
      { version := "1.0", assignment_id := "a1", request_id := "r1", tenant_id := "t1",
        job := { type := "sleep", payload := Json.obj [] },
        trace_id := some "tr1", run_id := Option.none, flow_id := Option.none,
        step_id := Option.none } "w1" 50)
      [123] (fun _ => some "broken pipe (os error 32)") 1 "ts"
      "broken pipe (os error 32)" (by decide)
    exact ⟨h.2.2.1, h.2.2.2⟩

/-- Claim C1 counterexample: on the exit path where serializing the
result envelope fails, the task body publishes no result and produces no
dead letter — the claimed "exactly one" fails there (0 ≠ 1). -/
theorem claim1_counterexample :
    (taskBody (mkTimeoutResult
        { version := "1.0", assignment_id := "a1", request_id := "r1", tenant_id := "t1",
          job := { type := "echo", payload := Json.obj [] },
          trace_id := Option.none, run_id := Option.none, flow_id := Option.none,
          step_id := Option.none } "w1" 50)
        Option.none (fun _ => Option.none) 3 "ts").resultPublished = 0 ∧
    (taskBody (mkTimeoutResult
        { version := "1.0", assignment_id := "a1", request_id := "r1", tenant_id := "t1",
          job := { type := "echo", payload := Json.obj [] },
          trace_id := Option.none, run_id := Option.none, flow_id := Option.none,
          step_id := Option.none } "w1" 50)
        Option.none (fun _ => Option.none) 3 "ts").dlqBusPublishes.length = 0 ∧
    (taskBody (mkTimeoutResult
        { version := "1.0", assignment_id := "a1", request_id := "r1", tenant_id := "t1",
          job := { type := "echo", payload := Json.obj [] },
          trace_id := Option.none, run_id := Option.none, flow_id := Option.none,
          step_id := Option.none } "w1" 50)
        Option.none (fun _ => Option.none) 3 "ts").dlqFileWrites.length = 0 ∧
    (0 + 0 : Nat) ≠ 1 := by
  exact ⟨rfl, rfl, rfl, by decide⟩

/-- Claim C1 (amended): whenever the result envelope serializes
successfully, the task body produces exactly one of a published result or
a published-and-filed dead letter (never both, never neither) on every
exit path; on the exit path where serialization fails it produces neither
(the failure is only logged); the permit is released on every path. -/
theorem claim1_amended :
    ∀ (r : ExecResult) (o : Nat → Option String) (m : Nat) (ts : String),
      (∀ ser : List Nat,
        (taskBody r (some ser) o m ts).resultPublished +
          (taskBody r (some ser) o m ts).dlqBusPublishes.length = 1 ∧
        (taskBody r (some ser) o m ts).dlqFileWrites.length =
          (taskBody r (some ser) o m ts).dlqBusPublishes.length) ∧
      ((taskBody r Option.none o m ts).resultPublished = 0 ∧
       (taskBody r Option.none o m ts).dlqBusPublishes.length = 0 ∧
       (taskBody r Option.none o m ts).dlqFileWrites.length = 0) ∧
      (∀ ser : Option (List Nat), (taskBody r ser o m ts).permitReleased = true) := by
  intro r o m ts
  refine ⟨?_, ⟨rfl, rfl, rfl⟩, ?_⟩
  · intro ser
    unfold taskBody
    rcases hq : publishLoop o m with ⟨pe, sleeps⟩
    cases pe <;> exact ⟨rfl, rfl⟩
  · intro ser
    cases ser with
    | none => rfl
    | some s =>
      unfold taskBody
      rcases hq : publishLoop o m with ⟨pe, sleeps⟩
      cases pe <;> rfl

/-! ## Claim C4 — malformed payloads on the assign subject -/

/-- A wire message whose envelope decodes with kind `exec_assign` but
whose `data` fails assignment decoding: the DECODE_ERROR branch. -/
def decodeErrorMsg : InMsg :=
  { subject := "caf.exec.assign.v1",
    payload := .js (Json.obj [("version", .str "v1"), ("kind", .str "exec_assign"),
                              ("data", .str "oops")]) 57 }

/-- A wire message that is not JSON at all: the PARSE_ERROR branch. -/
def parseErrorMsg : InMsg :=
  { subject := "caf.exec.assign.v1", payload := .notJson 8 }

/-- Claim C4 evaluated at the failing input: on the DECODE_ERROR branch
the worker writes one dead-letter line with reason `DECODE_ERROR` and
`payload_ref = {subject, len}`, publishes one dead-letter envelope, and
continues — but `dlq_published_total` is not incremented (the increment
the claim requires is present only on the PARSE_ERROR branch, evaluated
here for contrast). -/
theorem claim4_code_bug_eval :
    (processMessage (Dedup.new 4096) decodeErrorMsg "ts").2.dlqFileWrites =
      [{ reason := "DECODE_ERROR",
         payloadRef := .obj [("subject", .str "caf.exec.assign.v1"), ("len", .num (.int 57))],
         ts := "ts" }] ∧
    (processMessage (Dedup.new 4096) decodeErrorMsg "ts").2.dlqBusPublishes.length = 1 ∧
    (processMessage (Dedup.new 4096) decodeErrorMsg "ts").2.dlqCounterInc = 0 ∧
    (0 : Nat) ≠ 1 ∧
    (processMessage (Dedup.new 4096) decodeErrorMsg "ts").1 = Dedup.new 4096 ∧
    (processMessage (Dedup.new 4096) parseErrorMsg "ts").2.dlqFileWrites =
      [{ reason := "PARSE_ERROR",
         payloadRef := .obj [("subject", .str "caf.exec.assign.v1"), ("len", .num (.int 8))],
         ts := "ts" }] ∧
    (processMessage (Dedup.new 4096) parseErrorMsg "ts").2.dlqBusPublishes.length = 1 ∧
    (processMessage (Dedup.new 4096) parseErrorMsg "ts").2.dlqCounterInc = 1 := by
  exact ⟨rfl, rfl, rfl, by decide, rfl, rfl, rfl, rfl⟩

/-! ## Claim C5 — duplicate suppression before permit acquisition -/

/-- Claim C5: a duplicate assignment (id still in the dedup window) is
dropped silently before any permit is acquired — the dedup state is
unchanged and no result task is spawned, no dead letter is written or
published, no counter incremented, no permit taken; a fresh assignment is
inserted and spawned; hence, processing two messages carrying the same
assignment id (the first fresh), only the first spawns a task and the
second is dropped with no effects. -/
theorem claim5_dedup_drop :
    (∀ (d : Dedup) (msg : InMsg) (ts : String) (a : ExecAssignment),
      parsedAssignment msg.payload = some a →
      d.contains a.assignment_id = true →
      processMessage d msg ts = (d, StepEffects.none)) ∧
    (∀ (d : Dedup) (msg : InMsg) (ts : String) (a : ExecAssignment),
      parsedAssignment msg.payload = some a →
      d.contains a.assignment_id = false →
      processMessage d msg ts =
        (d.insert a.assignment_id,
         { dlqFileWrites := [], dlqBusPublishes := [], dlqCounterInc := 0,
           permitAcquired := true, spawned := some a })) ∧
    (∀ (d : Dedup) (k : String), 0 < d.capacity → d.contains k = false →
      (d.insert k).contains k = true) ∧
    (∀ (d : Dedup) (m1 m2 : InMsg) (ts1 ts2 : String) (a1 a2 : ExecAssignment),
      parsedAssignment m1.payload = some a1 →
      parsedAssignment m2.payload = some a2 →
      a2.assignment_id = a1.assignment_id →
      d.contains a1.assignment_id = false →
      0 < d.capacity →
      (processMessage d m1 ts1).2.spawned = some a1 ∧
      (processMessage d m1 ts1).2.permitAcquired = true ∧
      processMessage (processMessage d m1 ts1).1 m2 ts2 =
        ((processMessage d m1 ts1).1, StepEffects.none)) := by
  have hok : ∀ (p : InPayload) (a : ExecAssignment),
      parsedAssignment p = some a → parseCascade p = .ok a := by
    intro p a h
    unfold parsedAssignment at h
    cases hc : parseCascade p with
    | ok a' =>
      rw [hc] at h
      simp only [Option.some.injEq] at h
      rw [h]
    | deadletter r i =>
      rw [hc] at h
      simp at h
    | skipKind =>
      rw [hc] at h
      simp at h
  have hdup : ∀ (d : Dedup) (msg : InMsg) (ts : String) (a : ExecAssignment),
      parsedAssignment msg.payload = some a →
      d.contains a.assignment_id = true →
      processMessage d msg ts = (d, StepEffects.none) := by
    intro d msg ts a hp hc
    unfold processMessage
    rw [hok msg.payload a hp]
    simp [hc]
  have hfresh : ∀ (d : Dedup) (msg : InMsg) (ts : String) (a : ExecAssignment),
      parsedAssignment msg.payload = some a →
      d.contains a.assignment_id = false →
      processMessage d msg ts =
        (d.insert a.assignment_id,
         { dlqFileWrites := [], dlqBusPublishes := [], dlqCounterInc := 0,
           permitAcquired := true, spawned := some a }) := by
    intro d msg ts a hp hc
    unfold processMessage
    rw [hok msg.payload a hp]
    simp [hc]
  have hmem : ∀ (d : Dedup) (k : String), 0 < d.capacity → d.contains k = false →
      (d.insert k).contains k = true := by
    intro d k hcap hc
    unfold Dedup.insert
    unfold Dedup.contains at hc ⊢
    rw [hc]
    simp only [Bool.false_eq_true, if_false]
    split
    · next hlen =>
      rcases hq : d.queue with _ | ⟨x, q'⟩
      · exfalso
        rw [hq] at hlen
        simp at hlen
        omega
      · simp [List.contains, List.elem_eq_mem]
    · simp [List.contains, List.elem_eq_mem]
  refine ⟨hdup, hfresh, hmem, ?_⟩
  intro d m1 m2 ts1 ts2 a1 a2 hp1 hp2 heq hc hcap
  have h1 := hfresh d m1 ts1 a1 hp1 hc
  refine ⟨by rw [h1], by rw [h1], ?_⟩
  have hd1 : (processMessage d m1 ts1).1 = d.insert a1.assignment_id := by rw [h1]
  rw [hd1]
  apply hdup _ m2 ts2 a2 hp2
  rw [heq]
  exact hmem d a1.assignment_id hcap hc

/-- The assignment used in the duplicate-suppression witness. -/
def sampleAssignment : ExecAssignment :=
  { version := "1.0", assignment_id := "a1", request_id := "r1", tenant_id := "t1",
    job := { type := "echo", payload := .obj [("hello", .str "world")] },
    trace_id := some "tr1", run_id := Option.none, flow_id := Option.none,
    step_id := Option.none }

/-- The wire message carrying `sampleAssignment` in an `exec_assign`
envelope. -/
def sampleMsg : InMsg :=
  { subject := "caf.exec.assign.v1",
    payload := .js (.obj [("version", .str "v1"), ("kind", .str "exec_assign"),
      ("data", .obj [("version", .str "1.0"), ("assignment_id", .str "a1"),
        ("request_id", .str "r1"), ("tenant_id", .str "t1"),
        ("job", .obj [("type", .str "echo"),
                      ("payload", .obj [("hello", .str "world")])]),
        ("trace_id", .str "tr1")])]) 180 }

/-- Claim C5 witness: two back-to-back copies of the same assignment
against a fresh window of capacity 4096 — the first is spawned with a
permit, the second is dropped with no effects and an unchanged window. -/
theorem claim5_witness :
    (processMessage (Dedup.new 4096) sampleMsg "t1").2.spawned = some sampleAssignment ∧
    (processMessage (Dedup.new 4096) sampleMsg "t1").2.permitAcquired = true ∧
    processMessage (processMessage (Dedup.new 4096) sampleMsg "t1").1 sampleMsg "t2" =
      ((processMessage (Dedup.new 4096) sampleMsg "t1").1, StepEffects.none) :=
  claim5_dedup_drop.2.2.2 (Dedup.new 4096) sampleMsg sampleMsg "t1" "t2"
    sampleAssignment sampleAssignment rfl rfl rfl rfl (by decide)

/-! ## Claim C6 — dedup window capacity and FIFO eviction -/

/-- `insert` never changes the capacity. -/
theorem Dedup.insert_capacity (d : Dedup) (k : String) :
    (d.insert k).capacity = d.capacity := by
  unfold Dedup.insert
  split
  · rfl
  · split <;> rfl

/-- Folding `insert` over `ids ++ [k]` is folding over `ids` and then
inserting `k`. -/
theorem Dedup.insertAll_append_singleton (d : Dedup) (ids : List String) (k : String) :
    Dedup.insertAll d (ids ++ [k]) = (Dedup.insertAll d ids).insert k := by
  simp [Dedup.insertAll]

/-- Inserting a list of distinct ids into an empty window of capacity `C`
leaves exactly the last `C` of them, in insertion order. -/
theorem insertAll_new_eq (C : Nat) :
    ∀ ids : List String, ids.Nodup →
      Dedup.insertAll (Dedup.new C) ids =
        { queue := ids.drop (ids.length - C), capacity := C } := by
  intro ids
  induction ids using List.reverseRecOn with
  | nil => intro _; simp [Dedup.insertAll, Dedup.new]
  | append_singleton ids k ih =>
    intro hnd
    rw [List.nodup_append] at hnd
    obtain ⟨h1, _, hdisj⟩ := hnd
    have hk : k ∉ ids := fun hmem => hdisj hmem (List.mem_singleton_self k)
    rw [Dedup.insertAll_append_singleton, ih h1]
    have hnotmem : k ∉ ids.drop (ids.length - C) := fun hm => hk (List.drop_subset _ _ hm)
    have hcont : (ids.drop (ids.length - C)).contains k = false := by
      simp [List.contains, List.elem_eq_mem, hnotmem]
    unfold Dedup.insert
    simp only [hcont, Bool.false_eq_true, if_false]
    by_cases hC : C ≤ ids.length
    · have hlen : (ids.drop (ids.length - C)).length = C := by
        simp only [List.length_drop]; omega
      have hcond : C < (ids.drop (ids.length - C) ++ [k]).length := by
        simp [hlen]
      rw [if_pos hcond]
      congr 1
      have hdr : ids.drop (ids.length - C) ++ [k] = (ids ++ [k]).drop (ids.length - C) := by
        rw [List.drop_append_of_le_length (by omega)]
      rw [hdr, List.tail_drop]
      congr 1
      simp only [List.length_append, List.length_singleton]
      omega
    · have hlen : (ids.drop (ids.length - C)).length = ids.length := by
        simp only [List.length_drop]; omega
      have hcond : ¬ (C < (ids.drop (ids.length - C) ++ [k]).length) := by
        simp [hlen]; omega
      rw [if_neg hcond]
      congr 1
      · rw [show ids.length - C = 0 by omega, List.drop_zero]
        rw [show (ids ++ [k]).length - C = 0 by simp; omega, List.drop_zero]

/-- Claim C6: after every sequence of inserts the window holds at most
its capacity many ids; when an insert of a fresh id finds the window
full, the evicted id is exactly the oldest (FIFO); and after inserting
4097 distinct ids into the empty window of capacity 4096 built by the
pipeline, the first id is gone and the remaining 4096 are present. -/
theorem claim6_dedup_window :
    (∀ (d : Dedup) (k : String), d.queue.length ≤ d.capacity →
      (d.insert k).queue.length ≤ d.capacity) ∧
    (∀ (d : Dedup) (k : String), 0 < d.capacity → d.contains k = false →
      d.queue.length = d.capacity →
      (d.insert k).queue = d.queue.tail ++ [k]) ∧
    (∀ ids : List String, ids.Nodup → ids.length = 4097 →
      (∀ x, ids.head? = some x →
        (Dedup.insertAll (Dedup.new 4096) ids).contains x = false) ∧
      (∀ x, x ∈ ids.tail →
        (Dedup.insertAll (Dedup.new 4096) ids).contains x = true)) := by
  refine ⟨?_, ?_, ?_⟩
  · intro d k hle
    unfold Dedup.insert
    split
    · exact hle
    · split
      · next hgt =>
        simp only [List.length_tail, List.length_append, List.length_singleton] at hgt ⊢
        omega
      · next hng =>
        simp only [List.length_append, List.length_singleton] at hng ⊢
        omega
  · intro d k hcap hc hfull
    unfold Dedup.contains at hc
    unfold Dedup.insert
    rw [hc]
    simp only [Bool.false_eq_true, if_false]
    have hcond : d.capacity < (d.queue ++ [k]).length := by
      simp [hfull]
    rw [if_pos (by simpa using hcond)]
    have hne : d.queue ≠ [] := by
      intro h
      rw [h] at hfull
      simp at hfull
      omega
    simp [List.tail_append_of_ne_nil hne]
  · intro ids hnd hlen
    have hall := insertAll_new_eq 4096 ids hnd
    constructor
    · intro x hx
      rcases ids with _ | ⟨y, rest⟩
      · cases hx
      · simp only [List.head?_cons, Option.some.injEq] at hx
        subst hx
        unfold Dedup.contains
        rw [hall]
        have h1 : (y :: rest).length - 4096 = 1 := by rw [hlen]
        rw [h1]
        simp only [List.drop_succ_cons, List.drop_zero]
        have hxnot : y ∉ rest := (List.nodup_cons.mp hnd).1
        simp [List.contains, List.elem_eq_mem, hxnot]
    · intro x hx
      unfold Dedup.contains
      rw [hall]
      have h1 : ids.length - 4096 = 1 := by omega
      rw [h1, List.drop_one]
      simp [List.contains, List.elem_eq_mem, hx]

/-- Claim C6 witness: 4097 distinct ids (strings of distinct lengths)
inserted into the empty capacity-4096 window — the first is evicted, the
rest are retained. -/
theorem claim6_witness :
    (∀ x, (((List.range 4097).map fun n => String.mk (List.replicate n 'a')).head? = some x →
      (Dedup.insertAll (Dedup.new 4096)
        ((List.range 4097).map fun n => String.mk (List.replicate n 'a'))).contains x = false)) ∧
    (∀ x, x ∈ ((List.range 4097).map fun n => String.mk (List.replicate n 'a')).tail →
      (Dedup.insertAll (Dedup.new 4096)
        ((List.range 4097).map fun n => String.mk (List.replicate n 'a'))).contains x = true) := by
  have hinj : Function.Injective fun n => String.mk (List.replicate n 'a') := by
    intro a b h
    have h2 := congrArg String.length h
    simpa [String.length] using h2
  have hnd : (((List.range 4097).map fun n => String.mk (List.replicate n 'a'))).Nodup :=
    (List.nodup_range 4097).map hinj
  have hlen : (((List.range 4097).map fun n => String.mk (List.replicate n 'a'))).length = 4097 := by
    simp
  exact claim6_dedup_window.2.2 _ hnd hlen

/-! ## Claim C7 — DLQ on-disk limits at rest -/

/-- The count-cap loop leaves at most `maxRotations` files. -/
theorem dropOldestCount_length_le :
    ∀ (files : List RotFile) (m : Nat), (dropOldestCount files m).length ≤ m := by
  intro files
  induction files with
  | nil => intro m; simp [dropOldestCount]
  | cons f rest ih =>
    intro m
    unfold dropOldestCount
    split
    · exact ih m
    · next h => simp only [List.length_cons] at h ⊢; omega

/-- The total-bytes loop only deletes files. -/
theorem dropOldestTotal_length_le :
    ∀ (files : List RotFile) (t m : Nat),
      (dropOldestTotal files t m).length ≤ files.length := by
  intro files
  induction files with
  | nil => intro t m; simp [dropOldestTotal]
  | cons f rest ih =>
    intro t m
    unfold dropOldestTotal
    split
    · exact Nat.le_trans (ih (t - f.size) m) (by simp)
    · simp

/-- When started with the exact byte total, the total-bytes loop leaves
at most `totalMaxBytes` bytes of rotated segments. -/
theorem dropOldestTotal_sum_le :
    ∀ (files : List RotFile) (t m : Nat), t = sumSizes files →
      sumSizes (dropOldestTotal files t m) ≤ m := by
  intro files
  induction files with
  | nil => intro t m ht; simp [dropOldestTotal, sumSizes]
  | cons f rest ih =>
    intro t m ht
    have hsum : t = f.size + sumSizes rest := by
      rw [ht]; simp [sumSizes]
    unfold dropOldestTotal
    split
    · exact ih (t - f.size) m (by omega)
    · next h =>
      have : sumSizes (f :: rest) = f.size + sumSizes rest := by simp [sumSizes]
      omega

/-- After `enforce_limits` both rotated-file caps hold. -/
theorem enforceLimits_bounds (cfg : DlqConfig) (nowDay : Nat) (files : List RotFile) :
    (enforceLimits cfg nowDay files).length ≤ cfg.maxRotations ∧
    sumSizes (enforceLimits cfg nowDay files) ≤ cfg.totalMaxBytes := by
  unfold enforceLimits
  constructor
  · exact Nat.le_trans (dropOldestTotal_length_le _ _ _) (dropOldestCount_length_le _ _)
  · exact dropOldestTotal_sum_le _ _ _ rfl

/-- One append preserves the at-rest bounds: rotated count and rotated
bytes within their caps, and the active file ends at exactly
`p + (lineLen + 1)` bytes where `p < max_bytes` was its size before this
record (and its newline) went in — rotation runs first, so a pre-append
size at or above `max_bytes` is rotated away. -/
theorem writeDeadletter_inv (cfg : DlqConfig) (hmb : 0 < cfg.maxBytes)
    (nowDay : Nat) (st : DlqState) (lineLen : Nat)
    (h1 : st.rotated.length ≤ cfg.maxRotations)
    (h2 : sumSizes st.rotated ≤ cfg.totalMaxBytes) :
    (writeDeadletterToFile cfg nowDay st lineLen).rotated.length ≤ cfg.maxRotations ∧
    sumSizes (writeDeadletterToFile cfg nowDay st lineLen).rotated ≤ cfg.totalMaxBytes ∧
    ∃ p, (writeDeadletterToFile cfg nowDay st lineLen).active = some (p + (lineLen + 1)) ∧
      p < cfg.maxBytes := by
  cases hact : st.active with
  | none =>
    have heq : writeDeadletterToFile cfg nowDay st lineLen =
        { active := some (lineLen + 1), rotated := st.rotated } := by
      simp [writeDeadletterToFile, rotateIfNeeded, hact]
    rw [heq]
    exact ⟨h1, h2, 0, by simp, hmb⟩
  | some sz =>
    by_cases hrot : cfg.maxBytes ≤ sz
    · have heq : writeDeadletterToFile cfg nowDay st lineLen =
          { active := some (lineLen + 1),
            rotated := enforceLimits cfg nowDay
              (st.rotated ++ [{ mtimeDay := nowDay, size := sz }]) } := by
        simp [writeDeadletterToFile, rotateIfNeeded, hact, hrot]
      rw [heq]
      have hb := enforceLimits_bounds cfg nowDay
        (st.rotated ++ [{ mtimeDay := nowDay, size := sz }])
      exact ⟨hb.1, hb.2, 0, by simp, hmb⟩
    · have heq : writeDeadletterToFile cfg nowDay st lineLen =
          { active := some (sz + lineLen + 1), rotated := st.rotated } := by
        simp [writeDeadletterToFile, rotateIfNeeded, hact, hrot]
      rw [heq]
      exact ⟨h1, h2, sz, by simp [Nat.add_assoc], by omega⟩

/-- A run of appends keeps both rotated-file caps. -/
theorem dlqAppendAll_rotated_bounds (cfg : DlqConfig) (hmb : 0 < cfg.maxBytes) :
    ∀ (aps : List (Nat × Nat)) (st : DlqState),
      st.rotated.length ≤ cfg.maxRotations →
      sumSizes st.rotated ≤ cfg.totalMaxBytes →
      (dlqAppendAll cfg st aps).rotated.length ≤ cfg.maxRotations ∧
      sumSizes (dlqAppendAll cfg st aps).rotated ≤ cfg.totalMaxBytes := by
  intro aps
  induction aps with
  | nil => intro st ha hb; exact ⟨ha, hb⟩
  | cons ap rest ih =>
    intro st ha hb
    have hstep := writeDeadletter_inv cfg hmb ap.1 st ap.2 ha hb
    exact ih (writeDeadletterToFile cfg ap.1 st ap.2) hstep.1 hstep.2.1

/-- Splitting off the final append of a run. -/
theorem dlqAppendAll_concat (cfg : DlqConfig) (st : DlqState)
    (aps : List (Nat × Nat)) (ap : Nat × Nat) :
    dlqAppendAll cfg st (aps ++ [ap]) =
      writeDeadletterToFile cfg ap.1 (dlqAppendAll cfg st aps) ap.2 := by
  simp [dlqAppendAll]

/-- Claim C7 counterexample: with `max_bytes = 10` a single append of a
20-byte record leaves the active file at 21 bytes at rest — not below
`max_bytes` as the claim's third conjunct requires (rotation happens
before the next append, not after the current one). -/
theorem claim7_counterexample :
    (dlqAppendAll { maxBytes := 10, maxRotations := 5, totalMaxBytes := 1000,
                    maxAgeDays := Option.none } DlqState.init [(0, 20)]).active = some 21 ∧
    ¬ (21 < 10) := by
  exact ⟨rfl, by decide⟩

/-- Claim C7 (amended): after any sequence of dead-letter appends
completes, the number of rotated segments is at most
`dlq_max_rotations`, the sum of rotated-segment sizes is at most
`dlq_total_max_bytes`, and — writing `L` for the byte length of the most
recently appended JSON line — the active file's size is exactly
`p + (L + 1)` for some `p < dlq_max_bytes` (its size before that record
and its newline went in), so it exceeds `dlq_max_bytes` by less than the
size of its most recent record; with no appends there is no active
file. -/
theorem claim7_amended :
    ∀ (cfg : DlqConfig) (appends : List (Nat × Nat)), 0 < cfg.maxBytes →
      (dlqAppendAll cfg DlqState.init appends).rotated.length ≤ cfg.maxRotations ∧
      sumSizes (dlqAppendAll cfg DlqState.init appends).rotated ≤ cfg.totalMaxBytes ∧
      (appends = [] → (dlqAppendAll cfg DlqState.init appends).active = Option.none) ∧
      (∀ lst : Nat × Nat, appends.getLast? = some lst →
        ∃ p, (dlqAppendAll cfg DlqState.init appends).active = some (p + (lst.2 + 1)) ∧
          p < cfg.maxBytes) := by
  intro cfg appends hmb
  have hinit1 : (DlqState.init).rotated.length ≤ cfg.maxRotations := by
    simp [DlqState.init]
  have hinit2 : sumSizes (DlqState.init).rotated ≤ cfg.totalMaxBytes := by
    simp [DlqState.init, sumSizes]
  have hbounds := dlqAppendAll_rotated_bounds cfg hmb appends DlqState.init hinit1 hinit2
  refine ⟨hbounds.1, hbounds.2, ?_, ?_⟩
  · intro h; subst h; rfl
  · induction appends using List.reverseRecOn with
    | nil => intro lst hlast; simp at hlast
    | append_singleton aps ap _ =>
      intro lst hlast
      rw [List.getLast?_concat] at hlast
      injection hlast with hlst
      subst hlst
      have hmid := dlqAppendAll_rotated_bounds cfg hmb aps DlqState.init hinit1 hinit2
      rw [dlqAppendAll_concat]
      exact (writeDeadletter_inv cfg hmb ap.1 (dlqAppendAll cfg DlqState.init aps) ap.2
        hmid.1 hmid.2).2.2

/-- The configuration used in the C7 witness. -/
def dlqWitnessCfg : DlqConfig :=
  { maxBytes := 100, maxRotations := 3, totalMaxBytes := 1000, maxAgeDays := Option.none }

/-- Claim C7 witness: the amended bounds evaluated on a concrete run
(two appends under a 100-byte cap; the final record is 20 bytes). -/
theorem claim7_witness :
    (dlqAppendAll dlqWitnessCfg DlqState.init [(0, 10), (1, 20)]).rotated.length ≤
      dlqWitnessCfg.maxRotations ∧
    sumSizes (dlqAppendAll dlqWitnessCfg DlqState.init [(0, 10), (1, 20)]).rotated ≤
      dlqWitnessCfg.totalMaxBytes ∧
    (∃ p, (dlqAppendAll dlqWitnessCfg DlqState.init [(0, 10), (1, 20)]).active =
        some (p + (20 + 1)) ∧ p < dlqWitnessCfg.maxBytes) := by
  have h := claim7_amended dlqWitnessCfg [(0, 10), (1, 20)] (by decide)
  exact ⟨h.1, h.2.1, h.2.2.2 (1, 20) (by decide)⟩

/-! ## Claim C8 — path confinement of the filesystem handlers -/

/-- `listIsPrefix` decides `<+:`. -/
theorem listIsPrefix_iff : ∀ pat l : List Char, listIsPrefix pat l = true ↔ pat <+: l := by
  intro pat
  induction pat with
  | nil => intro l; simp [listIsPrefix]
  | cons p ps ih =>
    intro l
    cases l with
    | nil => simp [listIsPrefix]
    | cons c cs => simp [listIsPrefix, ih cs]

/-- `listHasInfix` decides `<:+:`. -/
theorem listHasInfix_iff : ∀ (l pat : List Char), listHasInfix pat l = true ↔ pat <:+: l := by
  intro l
  induction l with
  | nil => intro pat; simp [listHasInfix, listIsPrefix_iff]
  | cons c cs ih =>
    intro pat
    rw [List.infix_cons_iff]
    simp [listHasInfix, listIsPrefix_iff, ih]

/-- `strHasInfix` decides substring containment on the character lists. -/
theorem strHasInfix_iff (s pat : String) :
    strHasInfix s pat = true ↔ pat.data <:+: s.data := by
  simp [strHasInfix, listHasInfix_iff]

/-- Split a character list on `/`. -/
def splitOnSlash : List Char → List (List Char)
  | [] => [[]]
  | c :: rest =>
    if c = '/' then [] :: splitOnSlash rest
    else
      match splitOnSlash rest with
      | [] => [[c]]
      | s :: ss => (c :: s) :: ss

/-- The claim's notion of a parent-directory segment: some `/`-separated
segment of the path is exactly `..`. -/
def hasParentSegment (p : String) : Bool :=
  (splitOnSlash p.data).any fun seg => seg = ['.', '.']

/-- The first segment of the split is a prefix of the input. -/
theorem splitOnSlash_head_prefix : ∀ (l s : List Char) (ss : List (List Char)),
    splitOnSlash l = s :: ss → s <+: l := by
  intro l
  induction l with
  | nil =>
    intro s ss h
    simp only [splitOnSlash] at h
    cases h
    exact List.nil_prefix
  | cons c rest ih =>
    intro s ss h
    unfold splitOnSlash at h
    by_cases hc : c = '/'
    · rw [if_pos hc] at h
      cases h
      exact List.nil_prefix
    · rw [if_neg hc] at h
      rcases hs : splitOnSlash rest with _ | ⟨sh, sst⟩
      · rw [hs] at h
        cases h
        exact List.cons_prefix_cons.mpr ⟨rfl, List.nil_prefix⟩
      · rw [hs] at h
        injection h with h1 h2
        rw [← h1]
        exact List.cons_prefix_cons.mpr ⟨rfl, ih sh sst hs⟩

/-- Every segment produced by `splitOnSlash` occurs contiguously in the
input. -/
theorem splitOnSlash_infix : ∀ (l : List Char) (seg : List Char),
    seg ∈ splitOnSlash l → seg <:+: l := by
  intro l
  induction l with
  | nil =>
    intro seg hseg
    simp only [splitOnSlash, List.mem_singleton] at hseg
    simp [hseg]
  | cons c rest ih =>
    intro seg hseg
    unfold splitOnSlash at hseg
    by_cases hc : c = '/'
    · rw [if_pos hc] at hseg
      rcases List.mem_cons.mp hseg with h | h
      · simp [h]
      · exact List.infix_cons_iff.mpr (Or.inr (ih seg h))
    · rw [if_neg hc] at hseg
      rcases hs : splitOnSlash rest with _ | ⟨s, ss⟩
      · rw [hs] at hseg
        simp only [List.mem_singleton] at hseg
        subst hseg
        exact List.IsPrefix.isInfix ⟨rest, rfl⟩
      · rw [hs] at hseg
        rcases List.mem_cons.mp hseg with h | h
        · subst h
          have hpre : s <+: rest := splitOnSlash_head_prefix rest s ss hs
          exact List.IsPrefix.isInfix (List.cons_prefix_cons.mpr ⟨rfl, hpre⟩)
        · have hin := ih seg (by rw [hs]; exact List.mem_cons_of_mem s h)
          exact List.infix_cons_iff.mpr (Or.inr hin)

/-- A parent-directory segment in particular makes the path string
contain `..` (the code's coarser test). -/
theorem hasParentSegment_implies_dotdot (p : String) :
    hasParentSegment p = true → strHasInfix p ".." = true := by
  intro h
  unfold hasParentSegment at h
  rw [List.any_eq_true] at h
  obtain ⟨seg, hmem, hval⟩ := h
  have hseg : seg = ['.', '.'] := by simpa using hval
  subst hseg
  rw [strHasInfix_iff]
  exact splitOnSlash_infix p.data _ hmem

/-- Confinement predicate: `q` is the base directory itself or the join
of the base directory with a relative, `..`-free path. -/
def underBase (base q : String) : Prop :=
  q = base ∨ ∃ r : String, isAbsolutePath r = false ∧ strHasInfix r ".." = false ∧
    q = joinPath base r

/-- Decomposition of `dropWhile (· ≠ '/')`: either the whole list is
slash-free or it splits at its first slash. -/
theorem dropWhile_slash_spec : ∀ l : List Char,
    (∀ c ∈ l, c ≠ '/') ∨
    ∃ a b, l = a ++ '/' :: b ∧ (∀ c ∈ a, c ≠ '/') ∧
      l.dropWhile (fun c => c ≠ '/') = '/' :: b := by
  intro l
  induction l with
  | nil => left; simp
  | cons c cs ih =>
    by_cases hc : c = '/'
    · right
      refine ⟨[], cs, by simp [hc], by simp, ?_⟩
      subst hc
      simp [List.dropWhile]
    · rcases ih with h | ⟨a, b, hl, ha, hd⟩
      · left
        intro x hx
        rcases List.mem_cons.mp hx with h1 | h1
        · rw [h1]; exact hc
        · exact h x h1
      · right
        refine ⟨c :: a, b, by rw [hl]; simp, ?_, ?_⟩
        · intro x hx
          rcases List.mem_cons.mp hx with h1 | h1
          · rw [h1]; exact hc
          · exact ha x h1
        · have hdec : (decide (c ≠ '/')) = true := by simp [hc]
          rw [List.dropWhile_cons, hdec, if_pos rfl]
          exact hd

/-- `String.data` of an append. -/
theorem joinPath_data (base p : String) :
    (joinPath base p).data = base.data ++ '/' :: p.data := by
  unfold joinPath
  rw [String.data_append, String.data_append]
  have h : "/".data = ['/'] := rfl
  rw [h, List.append_assoc]
  rfl

/-- The defining equation of `shed` on a nonempty list. -/
theorem shed_cons (c : Char) (rest : List Char) :
    shed (c :: rest) =
      if c = '/' then shed rest
      else if c = '.' then
        match rest with
        | [] => ['.']
        | d :: _ => if d = '/' then shed rest else c :: rest
      else c :: rest := rfl

/-- `shed` over an append either consumes the first part entirely and
proceeds into the second, or stops inside the first part, keeping a
nonempty suffix of it untouched in front of the second. -/
theorem shed_append : ∀ (a z : List Char),
    shed (a ++ z) = shed z ∨
    ∃ s, s ≠ [] ∧ s <:+ a ∧ shed (a ++ z) = s ++ z := by
  intro a z
  induction a with
  | nil => left; rfl
  | cons c a' ih =>
    by_cases hc : c = '/'
    · subst hc
      rw [List.cons_append, shed_cons, if_pos rfl]
      rcases ih with h | ⟨s, hne, hsuf, heq⟩
      · left; exact h
      · right; exact ⟨s, hne, hsuf.trans (List.suffix_cons _ _), heq⟩
    · by_cases hd : c = '.'
      · subst hd
        rw [List.cons_append, shed_cons, if_neg hc, if_pos rfl]
        cases a' with
        | nil =>
          simp only [List.nil_append]
          cases z with
          | nil =>
            right
            exact ⟨['.'], by simp, List.suffix_refl _, rfl⟩
          | cons e z' =>
            by_cases he : e = '/'
            · subst he
              left
              show (if ('/' : Char) = '/' then shed ('/' :: z') else '.' :: '/' :: z') =
                shed ('/' :: z')
              rw [if_pos rfl]
            · right
              refine ⟨['.'], by simp, List.suffix_refl _, ?_⟩
              show (if e = '/' then shed (e :: z') else '.' :: e :: z') = ['.'] ++ e :: z'
              rw [if_neg he]
              rfl
        | cons d a'' =>
          simp only [List.cons_append] at ih ⊢
          by_cases hdl : d = '/'
          · subst hdl
            show (if ('/' : Char) = '/' then shed ('/' :: (a'' ++ z))
                else '.' :: '/' :: (a'' ++ z)) = shed z ∨ _
            rw [if_pos rfl]
            rcases ih with h | ⟨s, hne, hsuf, heq⟩
            · left; exact h
            · right; exact ⟨s, hne, hsuf.trans (List.suffix_cons _ _), heq⟩
          · right
            refine ⟨'.' :: d :: a'', by simp, List.suffix_refl _, ?_⟩
            show (if d = '/' then shed (d :: (a'' ++ z)) else '.' :: d :: (a'' ++ z)) =
              ('.' :: d :: a'') ++ z
            rw [if_neg hdl]
            rfl
      · rw [List.cons_append, shed_cons, if_neg hc, if_neg hd]
        right
        exact ⟨c :: a', by simp, List.suffix_refl _, rfl⟩

/-- A base directory string in the normal form the handler is
configured with: nonempty and already ending in a real path component
(no trailing separator and no trailing `.` segment), so that `joinPath`
agrees with `Path::join` and the components of `base.join(p)` are those
of `base` followed by those of `p`. -/
def goodBase (base : String) : Prop :=
  base.data ≠ [] ∧ shed base.data.reverse = base.data.reverse

/-- On a path that still has a component, `Path::parent` is `Some`. -/
theorem rustParentAux_isSome (hasRoot : Bool) (r : List Char) (hr : r ≠ []) :
    ∃ q, rustParentAux hasRoot r = some q := by
  cases hv : rustParentAux hasRoot r with
  | some q => exact ⟨q, rfl⟩
  | none =>
    exfalso
    unfold rustParentAux at hv
    rw [if_neg hr] at hv
    by_cases hdot : r = ['.']
    · rw [if_pos hdot] at hv; cases hv
    · rw [if_neg hdot] at hv
      cases hdw : r.dropWhile (fun c => c ≠ '/') with
      | nil =>
        rw [hdw] at hv
        dsimp only at hv
        cases hv
      | cons x restRev =>
        rw [hdw] at hv
        dsimp only at hv
        by_cases h1 : shed restRev = []
        · rw [if_pos h1] at hv
          cases hasRoot with
          | true => rw [if_pos rfl] at hv; cases hv
          | false => rw [if_neg (by simp)] at hv; cases hv
        · rw [if_neg h1] at hv
          by_cases h2 : shed restRev = ['.']
          · rw [if_pos h2] at hv; cases hv
          · rw [if_neg h2] at hv; cases hv

/-- A path whose first character is not `/` is not absolute. -/
theorem isAbsolutePath_mk_cons_false (c : Char) (cs : List Char) (hc : c ≠ '/') :
    isAbsolutePath (String.mk (c :: cs)) = false := by
  unfold isAbsolutePath
  split
  · next heq =>
    injection heq with h1 _
    exact absurd h1 hc
  · rfl

/-- A non-absolute path does not start with `/`. -/
theorem head_ne_slash_of_not_absolute (p : String) (c : Char) (rest : List Char)
    (hd : p.data = c :: rest) (h : isAbsolutePath p = false) : c ≠ '/' := by
  intro hc
  subst hc
  unfold isAbsolutePath at h
  rw [hd] at h
  simp at h

/-- Joining onto a nonempty base keeps the base's first character, so
it keeps its absoluteness. -/
theorem isAbsolutePath_join (base p : String) (b0 : Char) (bs : List Char)
    (hbd : base.data = b0 :: bs) :
    isAbsolutePath (joinPath base p) = isAbsolutePath base := by
  have hjd : (joinPath base p).data = b0 :: (bs ++ '/' :: p.data) := by
    rw [joinPath_data, hbd]; rfl
  have hj : joinPath base p = String.mk (b0 :: (bs ++ '/' :: p.data)) := by
    rw [← hjd]
  have hb : base = String.mk (b0 :: bs) := by
    rw [← hbd]
  by_cases hb' : b0 = '/'
  · subst hb'
    rw [hj, hb]
    rfl
  · rw [hj, hb, isAbsolutePath_mk_cons_false b0 _ hb',
      isAbsolutePath_mk_cons_false b0 _ hb']

/-- `Path::parent` of `base.join(p)` for a normal-form base and an
accepted relative, `..`-free `p`: it exists, and it is either within
the base directory (the base itself, or the base joined with a
relative `..`-free path — when `p` still has a component left after
dropping its last one) or it is `Path::parent` of the base directory
itself (when `p` has no real components at all, e.g. `""` or `"."`). -/
theorem rustParent_join (base p : String) (hgood : goodBase base)
    (habs : isAbsolutePath p = false) (hdd : strHasInfix p ".." = false) :
    ∃ q, rustParent (joinPath base p) = some q ∧
      (underBase base q ∨ rustParent base = some q) := by
  obtain ⟨hbne, hshed⟩ := hgood
  obtain ⟨b0, bs, hbd⟩ : ∃ b0 bs, base.data = b0 :: bs := by
    cases hb : base.data with
    | nil => exact absurd hb hbne
    | cons x xs => exact ⟨x, xs, rfl⟩
  have hrev : (joinPath base p).data.reverse =
      p.data.reverse ++ ('/' :: base.data.reverse) := by
    rw [joinPath_data]; simp
  have hmain : rustParent (joinPath base p) =
      rustParentAux (isAbsolutePath (joinPath base p))
        (shed (p.data.reverse ++ ('/' :: base.data.reverse))) := by
    unfold rustParent
    rw [hrev]
  have hz : shed ('/' :: base.data.reverse) = base.data.reverse := by
    rw [shed_cons, if_pos rfl, hshed]
  have hbrevne : base.data.reverse ≠ [] := by
    simp [hbd]
  have hbase_eq : String.mk base.data.reverse.reverse = base := by
    rw [List.reverse_reverse]
  rcases shed_append p.data.reverse ('/' :: base.data.reverse) with hL | ⟨s, hsne, hssuf, hseq⟩
  · -- `p` has no real components: the parent is the parent of the base
    have h1 : rustParent (joinPath base p) =
        rustParentAux (isAbsolutePath base) base.data.reverse := by
      rw [hmain, hL, hz, isAbsolutePath_join base p b0 bs hbd]
    obtain ⟨q, hq⟩ := rustParentAux_isSome (isAbsolutePath base) base.data.reverse hbrevne
    refine ⟨q, by rw [h1]; exact hq, Or.inr ?_⟩
    unfold rustParent
    rw [hshed]
    exact hq
  · -- `p` keeps at least one component: the parent stays under base
    obtain ⟨s0, s', hs0⟩ : ∃ s0 s', s = s0 :: s' := by
      cases hs : s with
      | nil => exact absurd hs hsne
      | cons x xs => exact ⟨x, xs, rfl⟩
    have hrne : s ++ '/' :: base.data.reverse ≠ [] := by simp [hs0]
    have hrdot : s ++ '/' :: base.data.reverse ≠ ['.'] := by
      intro h
      have hlen := congrArg List.length h
      simp [hs0] at hlen
    rcases dropWhile_slash_spec s with hall | ⟨s1, s2, hsplit, hs1, _⟩
    · -- the last component of the join reaches back to the base
      have hdrop : (s ++ '/' :: base.data.reverse).dropWhile (fun c => c ≠ '/') =
          '/' :: base.data.reverse := by
        rw [List.dropWhile_append_of_pos (by
          intro x hx
          simpa using hall x hx)]
        have hdec : (decide (('/' : Char) ≠ '/')) = false := by simp
        rw [List.dropWhile_cons, hdec]
        simp only [Bool.false_eq_true, if_false]
      by_cases hbdot : base.data.reverse = ['.']
      · have hbeq : ("." : String) = base := by
          rw [← hbase_eq, hbdot]
          rfl
        have hval : rustParentAux (isAbsolutePath (joinPath base p))
            (s ++ '/' :: base.data.reverse) = some "." := by
          unfold rustParentAux
          rw [if_neg hrne, if_neg hrdot, hdrop]
          dsimp only
          rw [hshed, if_neg hbrevne, if_pos hbdot]
        exact ⟨".", by rw [hmain, hseq]; exact hval, Or.inl (Or.inl hbeq)⟩
      · have hval : rustParentAux (isAbsolutePath (joinPath base p))
            (s ++ '/' :: base.data.reverse) =
            some (String.mk base.data.reverse.reverse) := by
          unfold rustParentAux
          rw [if_neg hrne, if_neg hrdot, hdrop]
          dsimp only
          rw [hshed, if_neg hbrevne, if_neg hbdot]
        exact ⟨String.mk base.data.reverse.reverse, by rw [hmain, hseq]; exact hval,
          Or.inl (Or.inl hbase_eq)⟩
    · -- `s` splits at its first slash
      have hdrop : (s ++ '/' :: base.data.reverse).dropWhile (fun c => c ≠ '/') =
          '/' :: (s2 ++ '/' :: base.data.reverse) := by
        rw [hsplit, List.append_assoc, List.cons_append]
        rw [List.dropWhile_append_of_pos (by
          intro x hx
          simpa using hs1 x hx)]
        have hdec : (decide (('/' : Char) ≠ '/')) = false := by simp
        rw [List.dropWhile_cons, hdec]
        simp only [Bool.false_eq_true, if_false]
      rcases shed_append s2 ('/' :: base.data.reverse) with hL2 | ⟨s3, hs3ne, hs3suf, hs3eq⟩
      · -- nothing of `p` is left before the last component
        by_cases hbdot : base.data.reverse = ['.']
        · have hbeq : ("." : String) = base := by
            rw [← hbase_eq, hbdot]
            rfl
          have hval : rustParentAux (isAbsolutePath (joinPath base p))
              (s ++ '/' :: base.data.reverse) = some "." := by
            unfold rustParentAux
            rw [if_neg hrne, if_neg hrdot, hdrop]
            dsimp only
            rw [hL2, hz, if_neg hbrevne, if_pos hbdot]
          exact ⟨".", by rw [hmain, hseq]; exact hval, Or.inl (Or.inl hbeq)⟩
        · have hval : rustParentAux (isAbsolutePath (joinPath base p))
              (s ++ '/' :: base.data.reverse) =
              some (String.mk base.data.reverse.reverse) := by
            unfold rustParentAux
            rw [if_neg hrne, if_neg hrdot, hdrop]
            dsimp only
            rw [hL2, hz, if_neg hbrevne, if_neg hbdot]
          exact ⟨String.mk base.data.reverse.reverse, by rw [hmain, hseq]; exact hval,
            Or.inl (Or.inl hbase_eq)⟩
      · -- a component of `p` is left: the parent is base joined with it
        obtain ⟨t0, t', ht0⟩ : ∃ t0 t', s3 = t0 :: t' := by
          cases ht : s3 with
          | nil => exact absurd ht hs3ne
          | cons x xs => exact ⟨x, xs, rfl⟩
        have hne3 : s3 ++ '/' :: base.data.reverse ≠ [] := by simp [ht0]
        have hdot3 : s3 ++ '/' :: base.data.reverse ≠ ['.'] := by
          intro h
          have hlen := congrArg List.length h
          simp [ht0] at hlen
        have hval : rustParentAux (isAbsolutePath (joinPath base p))
            (s ++ '/' :: base.data.reverse) =
            some (String.mk (s3 ++ '/' :: base.data.reverse).reverse) := by
          unfold rustParentAux
          rw [if_neg hrne, if_neg hrdot, hdrop]
          dsimp only
          rw [hs3eq, if_neg hne3, if_neg hdot3]
        -- `s3.reverse` is a prefix of `p`
        have hs2s : s2 <:+ s := by
          refine ⟨s1 ++ ['/'], ?_⟩
          rw [hsplit]
          simp
        have hs3p : s3 <:+ p.data.reverse := (hs3suf.trans hs2s).trans hssuf
        have hs3rev : s3.reverse <+: p.data := by
          have h := List.reverse_prefix.mpr hs3p
          rwa [List.reverse_reverse] at h
        refine ⟨String.mk (s3 ++ '/' :: base.data.reverse).reverse,
          by rw [hmain, hseq]; exact hval, Or.inl (Or.inr ⟨String.mk s3.reverse, ?_, ?_, ?_⟩)⟩
        · -- relative
          obtain ⟨c, cs, hcs⟩ : ∃ c cs, s3.reverse = c :: cs := by
            cases hr : s3.reverse with
            | nil =>
              exact absurd (by simpa using congrArg List.reverse hr) hs3ne
            | cons x xs => exact ⟨x, xs, rfl⟩
          rw [hcs]
          obtain ⟨t, ht⟩ := hs3rev
          have hdp : p.data = c :: (cs ++ t) := by
            rw [← ht, hcs]
            rfl
          exact isAbsolutePath_mk_cons_false c cs
            (head_ne_slash_of_not_absolute p c (cs ++ t) hdp habs)
        · -- `..`-free
          by_contra hne
          rw [Bool.not_eq_false] at hne
          rw [strHasInfix_iff] at hne
          have hinf : (String.data "..") <:+: p.data :=
            List.IsInfix.trans hne (List.IsPrefix.isInfix hs3rev)
          rw [← strHasInfix_iff] at hinf
          rw [hdd] at hinf
          cases hinf
        · -- the parent is the join of base with it
          have hq : (s3 ++ '/' :: base.data.reverse).reverse =
              base.data ++ '/' :: s3.reverse := by
            simp
          rw [hq]
          have hdata := joinPath_data base (String.mk s3.reverse)
          rw [← hdata]

/-- Claim C8 (amended): any `fs_blob_get`/`fs_blob_put` job whose path
string is absolute or contains a parent-directory segment is answered
with `status=error`, `error_code=INVALID_PATH` and touches no
filesystem path; every path `fs_blob_get` touches is the base directory
or the base directory joined with a relative, `..`-free path; and, for
a base directory in normal form, the same holds for every path
`fs_blob_put` touches except that its `create_dir_all` target can also
be `Path::parent` of the base directory itself — one step outside the
base — which happens when the accepted path string has no real
components (e.g. `""` or `"."`), so that `base.join(path)` has the
same components as `base`. -/
theorem claim8_path_confinement :
    (∀ (env : FsEnv) (baseDir : String) (job : Job) (p : String),
      (job.payload.get "path").bind Json.asStr = some p →
      (isAbsolutePath p = true ∨ hasParentSegment p = true) →
      (handleFsBlobGet env baseDir job).1 =
        (.error, job.type, Option.none, some "INVALID_PATH",
         some "Path traversal or absolute path not allowed") ∧
      (handleFsBlobGet env baseDir job).2 = [] ∧
      (handleFsBlobPut env baseDir job).1 =
        (.error, job.type, Option.none, some "INVALID_PATH",
         some "Path traversal or absolute path not allowed") ∧
      (handleFsBlobPut env baseDir job).2 = []) ∧
    (∀ (env : FsEnv) (baseDir : String) (job : Job) (op : FsOp),
      op ∈ (handleFsBlobGet env baseDir job).2 → underBase baseDir op.path) ∧
    (∀ (env : FsEnv) (baseDir : String) (job : Job) (op : FsOp),
      goodBase baseDir →
      op ∈ (handleFsBlobPut env baseDir job).2 →
      underBase baseDir op.path ∨
        ∃ q, op = FsOp.createDirAll q ∧ rustParent baseDir = some q) := by
  have hfromRejected : ∀ p : String, pathRejected p = false →
      isAbsolutePath p = false ∧ strHasInfix p ".." = false := by
    intro p h
    unfold pathRejected at h
    rcases Bool.or_eq_false_iff.mp h with ⟨h1, h2⟩
    exact ⟨h2, h1⟩
  have hUnderJoin : ∀ (baseDir p : String), pathRejected p = false →
      underBase baseDir (joinPath baseDir p) := by
    intro baseDir p h
    obtain ⟨habs, hdd⟩ := hfromRejected p h
    exact Or.inr ⟨p, habs, hdd, rfl⟩
  refine ⟨?_, ?_, ?_⟩
  · intro env baseDir job p hp hbad
    have hrej : pathRejected p = true := by
      unfold pathRejected
      rcases hbad with h | h
      · rw [h]; simp
      · rw [hasParentSegment_implies_dotdot p h]; simp
    refine ⟨?_, ?_, ?_, ?_⟩ <;>
      · first
        | (unfold handleFsBlobGet; rw [hp]; simp [hrej])
        | (unfold handleFsBlobPut; rw [hp]; simp [hrej])
  · intro env baseDir job op hop
    unfold handleFsBlobGet at hop
    cases hgp : (job.payload.get "path").bind Json.asStr with
    | none => rw [hgp] at hop; simp at hop
    | some p =>
      rw [hgp] at hop
      by_cases hrej : pathRejected p = true
      · simp [hrej] at hop
      · rw [Bool.not_eq_true] at hrej
        simp only [hrej, Bool.false_eq_true, if_false] at hop
        cases hre : env.read (joinPath baseDir p) with
        | ok content =>
          rw [hre] at hop
          simp only [List.mem_singleton] at hop
          rw [hop]
          exact hUnderJoin baseDir p hrej
        | error e =>
          rw [hre] at hop
          simp only [List.mem_singleton] at hop
          rw [hop]
          exact hUnderJoin baseDir p hrej
  · intro env baseDir job op hgood hop
    unfold handleFsBlobPut at hop
    cases hgp : (job.payload.get "path").bind Json.asStr with
    | none => rw [hgp] at hop; simp at hop
    | some p =>
      rw [hgp] at hop
      by_cases hrej : pathRejected p = true
      · simp [hrej] at hop
      · rw [Bool.not_eq_true] at hrej
        simp only [hrej, Bool.false_eq_true, if_false] at hop
        set contentBytes :=
          (match (job.payload.get "bytes").bind Json.asStr with
           | some b64 =>
             match b64Decode b64 with
             | some bs => Except.ok bs
             | Option.none =>
               Except.error (("BASE64_DECODE_ERROR" : String),
                 ("Invalid symbol or padding" : String))
           | Option.none =>
             match (job.payload.get "content").bind Json.asStr with
             | some contentStr => Except.ok (strBytes contentStr)
             | Option.none =>
               Except.error (("MISSING_CONTENT" : String),
                 ("Missing 'bytes' (base64) or 'content' (string) in payload" : String))) with hcb
        cases hce : contentBytes with
        | error pr =>
          rcases pr with ⟨code, msg⟩
          rw [hce] at hop
          simp at hop
        | ok bytes =>
          rw [hce] at hop
          dsimp only at hop
          obtain ⟨habs, hdd⟩ := hfromRejected p hrej
          obtain ⟨q, hq, hdisj⟩ := rustParent_join baseDir p hgood habs hdd
          rw [hq] at hop
          dsimp only at hop
          cases hcd : env.createDirAll q with
          | some e =>
            rw [hcd] at hop
            dsimp only at hop
            simp only [List.mem_singleton] at hop
            subst hop
            rcases hdisj with hu | hpb
            · exact Or.inl hu
            · exact Or.inr ⟨q, rfl, hpb⟩
          | none =>
            rw [hcd] at hop
            dsimp only at hop
            cases hwr : env.write (joinPath baseDir p) bytes with
            | none =>
              rw [hwr] at hop
              dsimp only at hop
              rcases List.mem_cons.mp hop with h | h
              · subst h
                rcases hdisj with hu | hpb
                · exact Or.inl hu
                · exact Or.inr ⟨q, rfl, hpb⟩
              · simp only [List.mem_singleton] at h
                subst h
                exact Or.inl (hUnderJoin baseDir p hrej)
            | some e =>
              rw [hwr] at hop
              dsimp only at hop
              rcases List.mem_cons.mp hop with h | h
              · subst h
                rcases hdisj with hu | hpb
                · exact Or.inl hu
                · exact Or.inr ⟨q, rfl, hpb⟩
              · simp only [List.mem_singleton] at h
                subst h
                exact Or.inl (hUnderJoin baseDir p hrej)

/-- The environment used in the C8 witness (every access denied). -/
def fsDenyEnv : FsEnv :=
  { read := fun _ => .error "denied",
    write := fun _ _ => some "denied",
    createDirAll := fun _ => Option.none }

/-- Claim C8 witness: the concrete scenario from the spec —
`{type:"fs_blob_get", payload:{path:"/etc/passwd"}}` yields
`INVALID_PATH` with no filesystem access, for both handlers. -/
theorem claim8_witness :
    (handleFsBlobGet fsDenyEnv "/data"
        { type := "fs_blob_get", payload := .obj [("path", .str "/etc/passwd")] }).1 =
      (.error, "fs_blob_get", Option.none, some "INVALID_PATH",
       some "Path traversal or absolute path not allowed") ∧
    (handleFsBlobGet fsDenyEnv "/data"
        { type := "fs_blob_get", payload := .obj [("path", .str "/etc/passwd")] }).2 = [] ∧
    (handleFsBlobPut fsDenyEnv "/data"
        { type := "fs_blob_get", payload := .obj [("path", .str "/etc/passwd")] }).1 =
      (.error, "fs_blob_get", Option.none, some "INVALID_PATH",
       some "Path traversal or absolute path not allowed") ∧
    (handleFsBlobPut fsDenyEnv "/data"
        { type := "fs_blob_get", payload := .obj [("path", .str "/etc/passwd")] }).2 = [] :=
  claim8_path_confinement.1 fsDenyEnv "/data"
    { type := "fs_blob_get", payload := .obj [("path", .str "/etc/passwd")] }
    "/etc/passwd" rfl (Or.inl (by decide))

/-- The environment used in the C8 counterexample (every access
succeeds). -/
def fsOkEnv : FsEnv :=
  { read := fun _ => .ok [],
    write := fun _ _ => Option.none,
    createDirAll := fun _ => Option.none }

/-- Claim C8 counterexample: the path string `""` is accepted (it is
neither absolute nor contains `..`), yet `base.join("")` has no
components beyond those of the base, so `fs_blob_put` calls
`create_dir_all` on `Path::parent` of the base directory itself — with
base directory `data/sub` it creates `data`, a path outside the base
directory, refuting the claim's "no path outside the configured base
directory is ever accessed". -/
theorem claim8_counterexample :
    (handleFsBlobPut fsOkEnv "data/sub"
        { type := "fs_blob_put",
          payload := .obj [("path", .str ""), ("content", .str "hi")] }).2 =
      [FsOp.createDirAll "data", FsOp.write "data/sub/"] ∧
    ¬ underBase "data/sub" "data" := by
  constructor
  · rfl
  · intro h
    rcases h with h | ⟨r, _, _, h⟩
    · exact absurd h (by decide)
    · have h4 : ("data" : String).data.length = 4 := rfl
      rw [h, joinPath_data] at h4
      simp only [List.length_append, List.length_cons] at h4
      omega

/-! ## Claim C9 — masked output contains no email match

Proof shape: (i) an email match never contains `*`, starts with a
local character and has a local character or `@` in second position;
(ii) therefore no email match can overlap the replacement string
`***@***.***` anywhere in the output; (iii) the anchored matcher is
complete — if an email match is a prefix of the remaining input, the
matcher fires — so no email survives inside untouched text either. -/

/-- An email match is at least six characters long. -/
theorem IsEmail.six_le {m : List Char} (h : IsEmail m) : 6 ≤ m.length := by
  obtain ⟨loc, dom, tld, hm, hlocne, _, hdomne, _, htld2, _, _⟩ := h
  subst hm
  rcases loc with _ | ⟨c, loc'⟩
  · exact absurd rfl hlocne
  rcases dom with _ | ⟨d, dom'⟩
  · exact absurd rfl hdomne
  simp only [List.length_append, List.length_cons]
  omega

/-- No character of an email match is `*`. -/
theorem IsEmail.no_star {m : List Char} (h : IsEmail m) : ∀ c ∈ m, c ≠ '*' := by
  obtain ⟨loc, dom, tld, hm, _, hloc, _, hdom, _, _, htld⟩ := h
  subst hm
  intro c hc hstar
  subst hstar
  rcases List.mem_append.mp hc with h1 | h1
  · exact absurd (hloc _ h1) (by decide)
  · rcases List.mem_cons.mp h1 with h2 | h2
    · exact absurd h2 (by decide)
    · rcases List.mem_append.mp h2 with h3 | h3
      · exact absurd (hdom _ h3) (by decide)
      · rcases List.mem_cons.mp h3 with h4 | h4
        · exact absurd h4 (by decide)
        · exact absurd (htld _ h4) (by decide)

/-- An email match starts with a local character. -/
theorem IsEmail.head_local {m : List Char} (h : IsEmail m) :
    ∃ c, m.head? = some c ∧ isLocalChar c = true := by
  obtain ⟨loc, dom, tld, hm, hlocne, hloc, _, _, _, _, _⟩ := h
  subst hm
  rcases loc with _ | ⟨c, loc'⟩
  · exact absurd rfl hlocne
  · exact ⟨c, rfl, hloc c (List.mem_cons_self c loc')⟩

/-- The second character of an email match is local or the `@`. -/
theorem IsEmail.second_local_or_at {m : List Char} (h : IsEmail m) :
    ∀ c, m.get? 1 = some c → (isLocalChar c = true ∨ c = '@') := by
  obtain ⟨loc, dom, tld, hm, hlocne, hloc, _, _, _, _, _⟩ := h
  subst hm
  intro c hc
  rcases loc with _ | ⟨c0, loc'⟩
  · exact absurd rfl hlocne
  rcases loc' with _ | ⟨c1, loc''⟩
  · simp only [List.cons_append, List.nil_append, List.get?] at hc
    injection hc with hc
    exact Or.inr hc.symm
  · simp only [List.cons_append, List.get?] at hc
    injection hc with hc
    exact Or.inl (hc ▸ hloc c1 (List.mem_cons_of_mem c0 (List.mem_cons_self c1 loc'')))

/-- Safety of a character list: no contiguous run is an email match. -/
def SafeL (l : List Char) : Prop :=
  ∀ mid, mid <:+: l → ¬ IsEmail mid

/-- The empty output is safe. -/
theorem safeL_nil : SafeL [] := by
  intro mid hmid hem
  rw [List.infix_nil] at hmid
  subst hmid
  have := hem.six_le
  simp at this

/-- Prepending `*` preserves safety: no email may start at the `*`. -/
theorem safeL_cons_star {l : List Char} (h : SafeL l) : SafeL ('*' :: l) := by
  intro mid hmid hem
  rcases List.infix_cons_iff.mp hmid with hpre | hinf
  · rcases mid with _ | ⟨x, mid'⟩
    · have := hem.six_le; simp at this
    · obtain ⟨hx, _⟩ := List.cons_prefix_cons.mp hpre
      obtain ⟨c0, hc0, hlocal⟩ := hem.head_local
      simp only [List.head?_cons, Option.some.injEq] at hc0
      rw [← hc0, hx] at hlocal
      exact absurd hlocal (by decide)
  · exact h mid hinf hem

/-- Prepending `@` preserves safety: no email may start at the `@`. -/
theorem safeL_cons_at {l : List Char} (h : SafeL l) : SafeL ('@' :: l) := by
  intro mid hmid hem
  rcases List.infix_cons_iff.mp hmid with hpre | hinf
  · rcases mid with _ | ⟨x, mid'⟩
    · have := hem.six_le; simp at this
    · obtain ⟨hx, _⟩ := List.cons_prefix_cons.mp hpre
      obtain ⟨c0, hc0, hlocal⟩ := hem.head_local
      simp only [List.head?_cons, Option.some.injEq] at hc0
      rw [← hc0, hx] at hlocal
      exact absurd hlocal (by decide)
  · exact h mid hinf hem

/-- Prepending `.` to a safe list that starts with `*` preserves
safety: an email starting at the `.` would need a local character or `@`
right after it, but the next character is `*`. -/
theorem safeL_cons_dot_star {l : List Char} (h : SafeL ('*' :: l)) :
    SafeL ('.' :: '*' :: l) := by
  intro mid hmid hem
  rcases List.infix_cons_iff.mp hmid with hpre | hinf
  · rcases mid with _ | ⟨x, mid'⟩
    · have := hem.six_le; simp at this
    · obtain ⟨_, hm'⟩ := List.cons_prefix_cons.mp hpre
      rcases mid' with _ | ⟨y, mid''⟩
      · have := hem.six_le; simp at this
      · obtain ⟨hy, _⟩ := List.cons_prefix_cons.mp hm'
        have h2 := hem.second_local_or_at y rfl
        rw [hy] at h2
        rcases h2 with h2 | h2
        · exact absurd h2 (by decide)
        · exact absurd h2 (by decide)
  · exact h mid hinf hem

/-- The replacement string can never take part in an email match: a
safe tail stays safe under prepending `***@***.***`. -/
theorem safeL_rep_append {rest : List Char} (h : SafeL rest) :
    SafeL (repStr.data ++ rest) := by
  have h1 := safeL_cons_star h
  have h2 := safeL_cons_star h1
  have h3 := safeL_cons_star h2
  have h4 := safeL_cons_dot_star h3
  have h5 := safeL_cons_star h4
  have h6 := safeL_cons_star h5
  have h7 := safeL_cons_star h6
  have h8 := safeL_cons_at h7
  have h9 := safeL_cons_star h8
  have h10 := safeL_cons_star h9
  have h11 := safeL_cons_star h10
  have hshape : repStr.data ++ rest =
      '*' :: '*' :: '*' :: '@' :: '*' :: '*' :: '*' :: '.' :: '*' :: '*' :: '*' :: rest := rfl
  rw [hshape]
  exact h11

/-- `takeWhile` stops exactly at the first failing element. -/
theorem takeWhile_append_cons {p : Char → Bool} :
    ∀ (a : List Char) (b : Char) (l : List Char),
      (∀ c ∈ a, p c = true) → p b = false →
      (a ++ b :: l).takeWhile p = a := by
  intro a b l ha hb
  rw [List.takeWhile_append_of_pos ha, List.takeWhile_cons, hb]
  simp

/-- Indexing just past a prefix. -/
theorem get?_append_length_cons :
    ∀ (a : List Char) (b : Char) (l : List Char), (a ++ b :: l).get? a.length = some b := by
  intro a
  induction a with
  | nil => intro b l; rfl
  | cons c a' ih => intro b l; exact ih b l

/-- Dropping a prefix and the following element. -/
theorem drop_append_length_cons :
    ∀ (a : List Char) (b : Char) (l : List Char), (a ++ b :: l).drop (a.length + 1) = l := by
  intro a
  induction a with
  | nil => intro b l; rfl
  | cons c a' ih => intro b l; exact ih b l

/-- If at least two alphabetic characters follow, the TLD matcher
fires. -/
theorem tldLen_isSome (tld rest0 : List Char) (h2 : 2 ≤ tld.length)
    (hall : ∀ c ∈ tld, isAlphaCI c = true) :
    (tldLen (tld ++ rest0)).isSome = true := by
  unfold tldLen
  rw [List.takeWhile_append_of_pos hall]
  have hge : 2 ≤ min 4 (tld ++ rest0.takeWhile isAlphaCI).length := by
    simp only [List.length_append]
    omega
  rw [if_pos hge]
  rfl

/-- Completeness of the domain backtracking search: a valid split at
some length `d ≤ D` makes `goDom` fire. -/
theorem goDom_isSome (after : List Char) :
    ∀ (D d : Nat), 1 ≤ d → d ≤ D → after.get? d = some '.' →
      (tldLen (after.drop (d + 1))).isSome = true →
      (goDom after D).isSome = true := by
  intro D
  induction D with
  | zero => intro d h1 h2 _ _; omega
  | succ D ih =>
    intro d h1 h2 hdot htld
    unfold goDom
    by_cases hD : after.get? (D + 1) = some '.'
    · rw [if_pos hD]
      cases htl : tldLen (after.drop (D + 2)) with
      | some k => rfl
      | none =>
        by_cases hd : d = D + 1
        · subst hd
          rw [htl] at htld
          simp at htld
        · exact ih d h1 (by omega) hdot htld
    · rw [if_neg hD]
      by_cases hd : d = D + 1
      · subst hd; exact absurd hdot hD
      · exact ih d h1 (by omega) hdot htld

/-- Completeness of the anchored matcher: if some prefix of `cs` is an
email match, `matchAt cs` fires. -/
theorem matchAt_isSome_of_email_prefix :
    ∀ (cs mid : List Char), mid <+: cs → IsEmail mid → (matchAt cs).isSome = true := by
  intro cs mid hpre hem
  obtain ⟨loc, dom, tld, hm, hlocne, hloc, hdomne, hdom, htld2, _, htld⟩ := hem
  obtain ⟨rest0, hcs⟩ := hpre
  subst hm
  subst hcs
  have hshape : (loc ++ '@' :: (dom ++ '.' :: tld)) ++ rest0 =
      loc ++ '@' :: (dom ++ '.' :: (tld ++ rest0)) := by
    simp [List.append_assoc]
  rw [hshape]
  have hat : isLocalChar '@' = false := by decide
  have htw : ((loc ++ '@' :: (dom ++ '.' :: (tld ++ rest0))).takeWhile isLocalChar) = loc :=
    takeWhile_append_cons loc '@' _ hloc hat
  have hempty : loc.isEmpty = false := by
    rcases loc with _ | ⟨c, loc'⟩
    · exact absurd rfl hlocne
    · rfl
  have hget : (loc ++ '@' :: (dom ++ '.' :: (tld ++ rest0))).get? loc.length = some '@' :=
    get?_append_length_cons loc '@' _
  have hdrop : (loc ++ '@' :: (dom ++ '.' :: (tld ++ rest0))).drop (loc.length + 1) =
      dom ++ '.' :: (tld ++ rest0) :=
    drop_append_length_cons loc '@' _
  have hdomle : dom.length ≤
      ((dom ++ '.' :: (tld ++ rest0)).takeWhile isDomainChar).length := by
    rw [List.takeWhile_append_of_pos hdom]
    simp
  have hdget : (dom ++ '.' :: (tld ++ rest0)).get? dom.length = some '.' :=
    get?_append_length_cons dom '.' _
  have hddrop : (dom ++ '.' :: (tld ++ rest0)).drop (dom.length + 1) = tld ++ rest0 :=
    drop_append_length_cons dom '.' _
  have htls : (tldLen ((dom ++ '.' :: (tld ++ rest0)).drop (dom.length + 1))).isSome = true := by
    rw [hddrop]
    exact tldLen_isSome tld rest0 htld2 htld
  have hgo : (goDom (dom ++ '.' :: (tld ++ rest0))
      ((dom ++ '.' :: (tld ++ rest0)).takeWhile isDomainChar).length).isSome = true := by
    apply goDom_isSome _ _ dom.length _ hdomle hdget htls
    rcases dom with _ | ⟨d0, dom'⟩
    · exact absurd rfl hdomne
    · simp
  unfold matchAt
  rw [htw, hempty]
  simp only [Bool.false_eq_true, if_false]
  rw [hget, hdrop]
  cases hg : goDom (dom ++ '.' :: (tld ++ rest0))
      ((dom ++ '.' :: (tld ++ rest0)).takeWhile isDomainChar).length with
  | some m => rfl
  | none => rw [hg] at hgo; simp at hgo

/-- A fired match consumes at least one character. -/
theorem matchAt_pos : ∀ (cs : List Char) (n : Nat), matchAt cs = some n → 1 ≤ n := by
  intro cs n h
  unfold matchAt at h
  by_cases he : (cs.takeWhile isLocalChar).isEmpty
  · rw [if_pos he] at h; cases h
  · rw [if_neg he] at h
    split at h
    · split at h
      · injection h with h
        omega
      · cases h
    · cases h

set_option maxHeartbeats 1000000 in
/-- Unfolding `maskAux` at a match. -/
theorem maskAux_eq_some {c : Char} {t : List Char} {n : Nat}
    (h : matchAt (c :: t) = some n) :
    maskAux (c :: t) = repStr.data ++ maskAux (t.drop (n - 1)) := by
  rw [maskAux.eq_def]
  simp only [h]

/-- Unfolding `maskAux` at a non-match. -/
theorem maskAux_eq_none {c : Char} {t : List Char}
    (h : matchAt (c :: t) = Option.none) :
    maskAux (c :: t) = c :: maskAux t := by
  rw [maskAux.eq_def]
  simp only [h]

/-- The base case of `maskAux`. -/
theorem maskAux_nil : maskAux [] = [] := by
  rw [maskAux.eq_def]

/-- A prefix of the masked output is a prefix of the input or contains a
`*` (from a replacement block). -/
theorem prefix_maskAux : ∀ (t m : List Char), m <+: maskAux t → m <+: t ∨ '*' ∈ m := by
  intro t
  induction t using maskAux.induct with
  | case1 =>
    intro m h
    rw [maskAux_nil] at h
    rw [List.prefix_nil] at h
    subst h
    exact Or.inl (List.nil_prefix)
  | case2 c t n hmatch ih =>
    intro m h
    rw [maskAux_eq_some hmatch] at h
    rcases m with _ | ⟨x, m'⟩
    · exact Or.inl List.nil_prefix
    · refine Or.inr ?_
      have hx : x = '*' := by
        have hshape : repStr.data ++ maskAux (t.drop (n - 1)) =
            '*' :: ('*' :: '*' :: '@' :: '*' :: '*' :: '*' :: '.' :: '*' :: '*' :: '*' :: [] ++
              maskAux (t.drop (n - 1))) := rfl
        rw [hshape] at h
        exact (List.cons_prefix_cons.mp h).1
      rw [hx]
      exact List.mem_cons_self _ _
  | case3 c t hmatch ih =>
    intro m h
    rw [maskAux_eq_none hmatch] at h
    rcases m with _ | ⟨x, m'⟩
    · exact Or.inl List.nil_prefix
    · obtain ⟨hx, hm'⟩ := List.cons_prefix_cons.mp h
      rcases ih m' hm' with h1 | h1
      · exact Or.inl (List.cons_prefix_cons.mpr ⟨hx, h1⟩)
      · exact Or.inr (List.mem_cons_of_mem x h1)

/-- The central safety property: the masked output never contains an
email match. -/
theorem maskAux_safe : ∀ cs : List Char, SafeL (maskAux cs) := by
  intro cs
  induction cs using maskAux.induct with
  | case1 =>
    rw [maskAux_nil]
    exact safeL_nil
  | case2 c t n hmatch ih =>
    rw [maskAux_eq_some hmatch]
    exact safeL_rep_append ih
  | case3 c t hmatch ih =>
    rw [maskAux_eq_none hmatch]
    intro mid hmid hem
    rcases List.infix_cons_iff.mp hmid with hpre | hinf
    · rcases mid with _ | ⟨x, mid'⟩
      · have := hem.six_le; simp at this
      · obtain ⟨hx, hm'⟩ := List.cons_prefix_cons.mp hpre
        rcases prefix_maskAux t mid' hm' with h1 | h1
        · have hpre2 : (x :: mid') <+: (c :: t) := List.cons_prefix_cons.mpr ⟨hx, h1⟩
          have hsome := matchAt_isSome_of_email_prefix (c :: t) (x :: mid') hpre2 hem
          rw [hmatch] at hsome
          simp at hsome
        · exact hem.no_star '*' (List.mem_cons_of_mem x h1) rfl
    · exact ih mid hinf hem

/-- Soundness of the executable email test. -/
theorem isEmailB_sound : ∀ m : List Char, isEmailB m = true → IsEmail m := by
  intro m h
  unfold isEmailB at h
  split at h
  case h_2 => cases h
  case h_1 x rest heq =>
    simp only [Bool.and_eq_true, Bool.not_eq_true', List.any_eq_true, decide_eq_true_eq,
      List.all_eq_true, List.mem_range] at h
    obtain ⟨⟨hne, hall⟩, d, hdlt, ⟨⟨⟨⟨hd0, hdomall⟩, hdot⟩, h2le⟩, h4le⟩, htldall⟩ := h
    have hpre : (m.takeWhile fun c => c ≠ '@') <+: m := List.takeWhile_prefix _
    have htake : m.take (m.takeWhile fun c => c ≠ '@').length =
        (m.takeWhile fun c => c ≠ '@') := (List.prefix_iff_eq_take.mp hpre).symm
    have hm : m = (m.takeWhile fun c => c ≠ '@') ++ '@' :: rest := by
      conv_lhs => rw [← List.take_append_drop (m.takeWhile fun c => c ≠ '@').length m]
      rw [htake, heq]
    have hgetd : rest[d] = '.' := by
      have h1 := hdot
      rw [List.get?_eq_getElem?] at h1
      rw [List.getElem?_eq_getElem hdlt] at h1
      injection h1
    have hrest : rest = rest.take d ++ '.' :: rest.drop (d + 1) := by
      have hdrop : rest.drop d = '.' :: rest.drop (d + 1) := by
        rw [List.drop_eq_getElem_cons hdlt, hgetd]
      conv_lhs => rw [← List.take_append_drop d rest]
      rw [hdrop]
    refine ⟨m.takeWhile fun c => c ≠ '@', rest.take d, rest.drop (d + 1),
      ?_, ?_, hall, ?_, ?_, ?_, ?_, htldall⟩
    · rw [← hrest]
      exact hm
    · intro hc
      rw [hc] at hne
      cases hne
    · have hlen : (rest.take d).length = d := by
        rw [List.length_take]
        omega
      intro hc
      rw [hc] at hlen
      simp at hlen
      omega
    · exact hdomall
    · rw [List.length_drop]
      omega
    · rw [List.length_drop]
      omega

/-- If no infix of the string is an email match, `hasEmailSub` is
`false`. -/
theorem hasEmailSub_eq_false_of_safe {s : String} (h : SafeL s.data) :
    hasEmailSub s = false := by
  cases hval : hasEmailSub s with
  | false => rfl
  | true =>
    exfalso
    unfold hasEmailSub at hval
    rw [List.any_eq_true] at hval
    obtain ⟨t, htails, hany⟩ := hval
    rw [List.any_eq_true] at hany
    obtain ⟨k, _, hB⟩ := hany
    have hsuffix : t <:+ s.data := (List.mem_tails t s.data).mp htails
    have hem : IsEmail (t.take k) := isEmailB_sound _ hB
    have hinf : (t.take k) <:+: s.data :=
      List.IsInfix.trans (List.IsPrefix.isInfix (List.take_prefix k t))
        (List.IsSuffix.isInfix hsuffix)
    exact h _ hinf hem

/-- Claim C9: for every input string, the output of `mask_pii` contains
no substring matching the email regex — including across the boundaries
between replaced regions and untouched text. -/
theorem claim9_mask_no_email : ∀ s : String, hasEmailSub (maskPii s) = false := by
  intro s
  apply hasEmailSub_eq_false_of_safe
  show SafeL (maskPii s).data
  have hdata : (maskPii s).data = maskAux s.data := rfl
  rw [hdata]
  exact maskAux_safe s.data

end Beamline
